import Mathlib

/-!
Verification of the JSON formatter's core (lexer, parser, printer) from
`src/lexer.rs`, `src/parser.rs` and `src/json.rs`.

Modelling conventions.

* Machine floats (`f64`) are abstracted by a type parameter `α` together
  with the two primitives the source uses on them: `str::parse::<f64>`
  (`LexModel.parseF64`) and `f64::to_string` (`LexModel.f64ToStr`).
  Theorems that depend on float behaviour take the facts they need about
  these primitives as hypotheses; concrete instances avoid numbers.
* `char::is_alphabetic` (the Unicode `Alphabetic` property) is likewise a
  parameter (`LexModel.isAlphabetic`); theorems state the finitely many
  ASCII facts they need about it.  `char::is_whitespace` is the Unicode
  `White_Space` property, a fixed set of 25 code points, defined exactly
  below.  `char::is_digit(10)` is `Char.isDigit`.
* The lexer's state is `input`, byte cursors `position ≤ read_position`
  and the current char `ch`; `ch` is always the character at byte offset
  `position` and the text from `position` on determines every later
  observation.  The streaming lexer is therefore modelled by its action
  on that remaining text (`nextToken : List Char → Option Token × List Char`).
  The byte-cursor state itself is modelled separately (`Lexer`, below)
  for the cursor invariants.
* The parser pulls one `Option<Token>` per `next_token()` call; the pull
  results on a given input are the successive elements of `tokenList`
  (after the list is exhausted every pull yields `none`).  The parser is
  modelled as a function of its lookahead `current_token` and the list of
  pending pull results.
-/

namespace RJson

/-- `Token` from `src/lexer.rs` (lines 1–14), the `f64` payload abstracted
to `α`. -/
inductive Token (α : Type) : Type where
  | leftBrace
  | rightBrace
  | leftBracket
  | rightBracket
  | colon
  | comma
  | string (s : String)
  | number (n : α)
  | true
  | false
  | null

/-- `JsonValue` from `src/json.rs` (lines 3–15), the `f64` payload
abstracted to `α`.  `JsonObject = IndexMap<String, JsonValue>` is an
insertion-ordered map, modelled as the list of its entries in order;
`JsonArray = Vec<JsonValue>` is a list. -/
inductive JsonValue (α : Type) : Type where
  | object (entries : List (String × JsonValue α))
  | array (elements : List (JsonValue α))
  | string (s : String)
  | number (n : α)
  | true
  | false
  | null

/-- The abstracted primitives of the source: `str::parse::<f64>` and
`f64::to_string` (both on the characters involved), and
`char::is_alphabetic`. -/
structure LexModel (α : Type) : Type where
  parseF64 : List Char → Option α
  f64ToStr : α → List Char
  isAlphabetic : Char → Bool

/-- `char::is_whitespace`: the Unicode `White_Space` property (25 code
points). -/
def rustIsWhitespace (c : Char) : Bool :=
  let n := c.toNat
  (0x09 ≤ n && n ≤ 0x0D) || n == 0x20 || n == 0x85 || n == 0xA0 || n == 0x1680 ||
    (0x2000 ≤ n && n ≤ 0x200A) || n == 0x2028 || n == 0x2029 || n == 0x202F ||
    n == 0x205F || n == 0x3000

/-- The characters `read_number` consumes (`src/lexer.rs` line 164): a
decimal digit or one of `. - + e E`. -/
def isNumChar (c : Char) : Bool :=
  c.isDigit || c == '.' || c == '-' || c == '+' || c == 'e' || c == 'E'

/-- The loop of `read_string` (`src/lexer.rs` lines 114–155), acting on the
text after the opening quote, with the accumulated decoded characters.
Returns the decoded characters and the remaining text.  The `\uXXXX` arm
mirrors the source: the backslash, the `u` and the four following
characters are consumed and nothing is pushed; if fewer than four
characters remain, end of input is reached while skipping. -/
def readStringAux : List Char → List Char → List Char × List Char
  | [], acc => (acc, [])
  | '"' :: rest, acc => (acc, rest)
  | '\\' :: rest, acc =>
    match rest with
    | [] => (acc, [])
    | 'u' :: _ :: _ :: _ :: _ :: t => readStringAux t acc
    | ['u'] | ['u', _] | ['u', _, _] | ['u', _, _, _] => (acc, [])
    | e :: t =>
      if e = '"' then readStringAux t (acc ++ ['"'])
      else if e = '\\' then readStringAux t (acc ++ ['\\'])
      else if e = '/' then readStringAux t (acc ++ ['/'])
      else if e = 'b' then readStringAux t (acc ++ ['\x08'])
      else if e = 'f' then readStringAux t (acc ++ ['\x0C'])
      else if e = 'n' then readStringAux t (acc ++ ['\n'])
      else if e = 'r' then readStringAux t (acc ++ ['\x0D'])
      else if e = 't' then readStringAux t (acc ++ ['\t'])
      else readStringAux t acc
  | c :: rest, acc => readStringAux rest (acc ++ [c])

/-- `read_literal`'s keyword table (`src/lexer.rs` lines 187–192). -/
def keywordToken (α : Type) (w : String) : Option (Token α) :=
  if w = "true" then some Token.true
  else if w = "false" then some Token.false
  else if w = "null" then some Token.null
  else none

/-- `next_token` (`src/lexer.rs` lines 41–91) as a function of the
remaining text: skip whitespace, then dispatch on the current character.
Returns the pull result (`Option<Token>`) and the remaining text.  A
`none` result is produced at end of input, after skipping an unknown
character, after a numeric lexeme that fails to parse, and after an
unknown alphabetic lexeme. -/
def nextToken {α : Type} (M : LexModel α) (s : List Char) : Option (Token α) × List Char :=
  let s := s.dropWhile rustIsWhitespace
  match s with
  | [] => (none, [])
  | c :: rest =>
    if c = '\x7b' then (some Token.leftBrace, rest)
    else if c = '\x7d' then (some Token.rightBrace, rest)
    else if c = '[' then (some Token.leftBracket, rest)
    else if c = ']' then (some Token.rightBracket, rest)
    else if c = ':' then (some Token.colon, rest)
    else if c = ',' then (some Token.comma, rest)
    else if c = '"' then
      let r := readStringAux rest []
      (some (Token.string (String.mk r.1)), r.2)
    else if c.isDigit || c = '-' || c = '+' then
      let numStr := (c :: rest).takeWhile isNumChar
      let rest' := (c :: rest).dropWhile isNumChar
      ((match M.parseF64 numStr with
        | some n => some (Token.number n)
        | none => none), rest')
    else if M.isAlphabetic c then
      let w := (c :: rest).takeWhile M.isAlphabetic
      let rest' := (c :: rest).dropWhile M.isAlphabetic
      (keywordToken α (String.mk w), rest')
    else (none, rest)

/-- Fuelled iteration of `nextToken`, recording every pull result until the
remaining text is empty.  Each call on a nonempty text strictly shortens
it (`nextToken_length_lt`), so `tokenList` below gives it enough fuel. -/
def tokenListAux {α : Type} (M : LexModel α) : Nat → List Char → List (Option (Token α))
  | 0, _ => []
  | _ + 1, [] => []
  | n + 1, c :: rest =>
    let r := nextToken M (c :: rest)
    r.1 :: tokenListAux M n r.2

/-- The successive results of `next_token()` on an input text, until the
text is exhausted (after which every further pull returns `none` without
changing the state, see `nextToken_nil`). -/
def tokenList {α : Type} (M : LexModel α) (s : List Char) : List (Option (Token α)) :=
  tokenListAux M s.length s

/-- The remaining text after `n` calls of `next_token()`. -/
def lexIterState {α : Type} (M : LexModel α) : Nat → List Char → List Char
  | 0, s => s
  | n + 1, s => lexIterState M n (nextToken M s).2

theorem nextToken_nil {α : Type} (M : LexModel α) : nextToken M [] = (none, []) := rfl

theorem readStringAux_length_le (s acc : List Char) :
    (readStringAux s acc).2.length ≤ s.length := by
  induction s, acc using readStringAux.induct <;>
    simp_all [readStringAux] <;> omega

theorem dropWhile_length_le {β : Type} (p : β → Bool) (l : List β) :
    (l.dropWhile p).length ≤ l.length := by
  induction l with
  | nil => simp
  | cons a l ih =>
    by_cases h : p a <;> simp [List.dropWhile, h] <;> omega

/-- Any `next_token()` call on a nonempty remaining text strictly shortens
it. -/
theorem nextToken_length_lt {α : Type} (M : LexModel α) (s : List Char) (hs : s ≠ []) :
    (nextToken M s).2.length < s.length := by
  have hdw := dropWhile_length_le rustIsWhitespace s
  unfold nextToken
  cases hd : s.dropWhile rustIsWhitespace with
  | nil =>
    simp only [hd]
    cases s with
    | nil => exact absurd rfl hs
    | cons c rest => simp
  | cons c rest =>
    rw [hd] at hdw
    simp only [hd, List.length_cons] at hdw ⊢
    have hrest : rest.length + 1 ≤ s.length := hdw
    have hrs := readStringAux_length_le rest ([] : List Char)
    split_ifs with h1 h2 h3 h4 h5 h6 h7 h8 h9
    · simpa using hdw
    · simpa using hdw
    · simpa using hdw
    · simpa using hdw
    · simpa using hdw
    · simpa using hdw
    · simp only []
      omega
    · have hc : isNumChar c = true := by
        simp only [isNumChar, Bool.or_eq_true, beq_iff_eq, decide_eq_true_eq]
        simp only [Bool.or_eq_true, decide_eq_true_eq] at h8
        tauto
      have hdn : ((c :: rest).dropWhile isNumChar).length ≤ rest.length := by
        rw [List.dropWhile_cons, if_pos hc]
        exact dropWhile_length_le _ _
      simp only []
      omega
    · have hda : ((c :: rest).dropWhile M.isAlphabetic).length ≤ rest.length := by
        rw [List.dropWhile_cons, if_pos h9]
        exact dropWhile_length_le _ _
      simp only []
      omega
    · simp only []
      omega

theorem tokenListAux_congr {α : Type} (M : LexModel α) :
    ∀ n m s, s.length ≤ n → s.length ≤ m → tokenListAux M n s = tokenListAux M m s := by
  intro n
  induction n with
  | zero =>
    intro m s hn _
    have : s = [] := List.eq_nil_of_length_eq_zero (Nat.le_zero.mp hn)
    subst this
    cases m <;> rfl
  | succ n ih =>
    intro m s hn hm
    cases s with
    | nil => cases m <;> rfl
    | cons c rest =>
      cases m with
      | zero => simp at hm
      | succ m =>
        simp only [tokenListAux]
        have hlt : (nextToken M (c :: rest)).2.length < rest.length + 1 :=
          nextToken_length_lt M (c :: rest) (by simp)
        simp only [List.length_cons] at hn hm
        rw [ih m (nextToken M (c :: rest)).2 (by omega) (by omega)]

theorem tokenList_cons {α : Type} (M : LexModel α) (s : List Char) (hs : s ≠ []) :
    tokenList M s = (nextToken M s).1 :: tokenList M (nextToken M s).2 := by
  cases s with
  | nil => exact absurd rfl hs
  | cons c rest =>
    have hlt : (nextToken M (c :: rest)).2.length < rest.length + 1 :=
      nextToken_length_lt M (c :: rest) (by simp)
    simp only [tokenList, List.length_cons, tokenListAux]
    rw [tokenListAux_congr M rest.length (nextToken M (c :: rest)).2.length
      (nextToken M (c :: rest)).2 (by omega) (le_refl _)]

theorem tokenList_nil {α : Type} (M : LexModel α) : tokenList M [] = [] := rfl

/-- After enough calls the remaining text is exhausted. -/
theorem lexIterState_nil {α : Type} (M : LexModel α) :
    ∀ n s, s.length ≤ n → lexIterState M n s = [] := by
  intro n
  induction n with
  | zero =>
    intro s hn
    exact List.eq_nil_of_length_eq_zero (Nat.le_zero.mp hn)
  | succ n ih =>
    intro s hn
    cases hs : s with
    | nil => simp only [lexIterState, nextToken_nil]; exact ih [] (by simp)
    | cons c rest =>
      subst hs
      have hlt : (nextToken M (c :: rest)).2.length < rest.length + 1 :=
        nextToken_length_lt M (c :: rest) (by simp)
      exact ih _ (by simp only [List.length_cons] at hn; omega)

/-!  ## The printer

`JsonValue::format` and `format_value` from `src/json.rs` (lines 21–84),
producing the pushed characters in order.  `push_indent` pushes `indent`
spaces; inside a container each entry or element is rendered at
`indent + 2`, followed by `",\n"` except after the last one, which is
followed by `"\n"`; the closer is preceded by `indent` spaces. -/

/-- `push_indent` (`src/json.rs` lines 95–99). -/
def pad (n : Nat) : List Char := List.replicate n ' '

/-- The separator the container loops push after an entry or element
(`src/json.rs` lines 42–46 and 56–60): `",\n"` when more remain (the
enumeration index is below `len - 1`), `"\n"` after the last. -/
def fmtSep {β : Type} (r : List β) : List Char :=
  match r with
  | [] => ['\n']
  | _ :: _ => [',', '\n']

mutual

/-- `format_value` (`src/json.rs` lines 31–84): the characters appended for
one value at the given indent.  `f64::to_string` is the model's
`f64ToStr`. -/
def fmt {α : Type} (M : LexModel α) : JsonValue α → Nat → List Char
  | JsonValue.object ms, indent =>
    '\x7b' :: '\n' :: (fmtEntries M ms indent ++ (pad indent ++ ['\x7d']))
  | JsonValue.array vs, indent =>
    '[' :: '\n' :: (fmtElems M vs indent ++ (pad indent ++ [']']))
  | JsonValue.string s, _ => '"' :: (s.data ++ ['"'])
  | JsonValue.number n, _ => M.f64ToStr n
  | JsonValue.true, _ => "true".data
  | JsonValue.false, _ => "false".data
  | JsonValue.null, _ => "null".data

/-- The object loop of `format_value` (`src/json.rs` lines 35–47): one
entry per iteration, `",\n"` between entries, `"\n"` after the last. -/
def fmtEntries {α : Type} (M : LexModel α) : List (String × JsonValue α) → Nat → List Char
  | [], _ => []
  | (k, v) :: rest, indent =>
    pad (indent + 2) ++
      ('"' :: (k.data ++ ('"' :: ':' :: ' ' :: fmt M v (indent + 2)))) ++
      fmtSep rest ++ fmtEntries M rest indent

/-- The array loop of `format_value` (`src/json.rs` lines 53–61). -/
def fmtElems {α : Type} (M : LexModel α) : List (JsonValue α) → Nat → List Char
  | [], _ => []
  | v :: rest, indent =>
    pad (indent + 2) ++ fmt M v (indent + 2) ++
      fmtSep rest ++ fmtElems M rest indent

end

/-!  ## The byte-cursor lexer state

`Lexer` from `src/lexer.rs` (lines 16–21) with its byte cursors, for the
cursor invariants.  The input is the list of its characters; byte offsets
are measured by `utf8Len`. -/

/-- The UTF-8 byte length of a text (Rust's `str::len`). -/
def utf8Len : List Char → Nat
  | [] => 0
  | c :: cs => c.utf8Size + utf8Len cs

/-- The character starting at byte offset `b` (Rust's
`input[b..].chars().next()`); `none` past the end or (never reached from
lexer states) off a character boundary. -/
def charAtB : List Char → Nat → Option Char
  | [], _ => none
  | c :: cs, b =>
    if b = 0 then some c
    else if b < c.utf8Size then none
    else charAtB cs (b - c.utf8Size)

/-- The lexer state of `src/lexer.rs` lines 16–21: the input, the byte
cursor `position` of the current character, the byte cursor
`read_position` of the next character, and the current character `ch`
(`none` at end of input). -/
structure Lexer : Type where
  input : List Char
  position : Nat
  read_position : Nat
  ch : Option Char

/-- `read_char` (`src/lexer.rs` lines 96–108): read the character starting
at `read_position` (end of input when the cursor is past the buffer), move
`position` there, and advance `read_position` by the UTF-8 size of the
character read. -/
def Lexer.read_char (st : Lexer) : Lexer :=
  let c : Option Char :=
    if st.read_position ≥ utf8Len st.input then none
    else charAtB st.input st.read_position
  { st with
    ch := c
    position := st.read_position
    read_position := st.read_position + (match c with | some c => c.utf8Size | none => 0) }

/-- Termination measure for the lexer loops: twice the remaining bytes
plus one when a current character is loaded.  `read_char` never increases
it and strictly decreases it from any state with a current character. -/
def Lexer.fuel (st : Lexer) : Nat :=
  2 * (utf8Len st.input - min st.read_position (utf8Len st.input)) +
    (match st.ch with | some _ => 1 | none => 0)

theorem Lexer.fuel_read_char_le (st : Lexer) : st.read_char.fuel ≤ st.fuel := by
  unfold Lexer.read_char Lexer.fuel
  by_cases hge : st.read_position ≥ utf8Len st.input
  · simp only [hge, if_true]
    cases st.ch <;> simp <;> omega
  · simp only [hge, if_false]
    cases hc : charAtB st.input st.read_position with
    | none => cases st.ch <;> simp <;> omega
    | some c =>
      have hsz := c.utf8Size_pos
      cases st.ch <;> simp <;> omega

theorem Lexer.fuel_read_char_lt (st : Lexer) (h : st.ch.isSome) :
    st.read_char.fuel < st.fuel := by
  cases hch : st.ch with
  | none => rw [hch] at h; simp at h
  | some c0 =>
    unfold Lexer.read_char Lexer.fuel
    by_cases hge : st.read_position ≥ utf8Len st.input
    · simp only [hge, if_true, hch]
      simp <;> omega
    · simp only [hge, if_false, hch]
      cases hc : charAtB st.input st.read_position with
      | none => simp <;> omega
      | some c =>
        have hsz := c.utf8Size_pos
        simp <;> omega

/-- `new` (`src/lexer.rs` lines 27–36): zero cursors, no current
character, then one `read_char` to prime `ch`. -/
def Lexer.new (input : List Char) : Lexer :=
  Lexer.read_char { input := input, position := 0, read_position := 0, ch := none }

/-- `skip_whitespace` (`src/lexer.rs` lines 198–206). -/
def Lexer.skip_whitespace (st : Lexer) : Lexer :=
  match h : st.ch with
  | some c => if rustIsWhitespace c then Lexer.skip_whitespace st.read_char else st
  | none => st
termination_by st.fuel
decreasing_by exact Lexer.fuel_read_char_lt st (by rw [h]; rfl)

/-- The loop of `read_string` (`src/lexer.rs` lines 118–153) on the
byte-cursor state, with the accumulated decoded characters. -/
def Lexer.read_stringAux (st : Lexer) (acc : List Char) : List Char × Lexer :=
  match h : st.ch with
  | none => (acc, st)
  | some c =>
    if c = '"' then (acc, st.read_char)
    else if c = '\\' then
      match st.read_char.ch with
      | none => Lexer.read_stringAux st.read_char.read_char acc
      | some esc =>
        if esc = '"' then Lexer.read_stringAux st.read_char.read_char (acc ++ ['"'])
        else if esc = '\\' then Lexer.read_stringAux st.read_char.read_char (acc ++ ['\\'])
        else if esc = '/' then Lexer.read_stringAux st.read_char.read_char (acc ++ ['/'])
        else if esc = 'b' then Lexer.read_stringAux st.read_char.read_char (acc ++ ['\x08'])
        else if esc = 'f' then Lexer.read_stringAux st.read_char.read_char (acc ++ ['\x0C'])
        else if esc = 'n' then Lexer.read_stringAux st.read_char.read_char (acc ++ ['\n'])
        else if esc = 'r' then Lexer.read_stringAux st.read_char.read_char (acc ++ ['\x0D'])
        else if esc = 't' then Lexer.read_stringAux st.read_char.read_char (acc ++ ['\t'])
        else if esc = 'u' then
          Lexer.read_stringAux
            st.read_char.read_char.read_char.read_char.read_char.read_char acc
        else Lexer.read_stringAux st.read_char.read_char acc
    else Lexer.read_stringAux st.read_char (acc ++ [c])
termination_by st.fuel
decreasing_by
  all_goals {
    have h0 : st.read_char.fuel < st.fuel := Lexer.fuel_read_char_lt st (by rw [h]; rfl)
    have h1 := Lexer.fuel_read_char_le st.read_char
    have h2 := Lexer.fuel_read_char_le st.read_char.read_char
    have h3 := Lexer.fuel_read_char_le st.read_char.read_char.read_char
    have h4 := Lexer.fuel_read_char_le st.read_char.read_char.read_char.read_char
    have h5 := Lexer.fuel_read_char_le st.read_char.read_char.read_char.read_char.read_char
    omega
  }

/-- `read_string` (`src/lexer.rs` lines 114–155): skip the opening quote,
then run the loop from an empty accumulator. -/
def Lexer.read_string (st : Lexer) : List Char × Lexer :=
  Lexer.read_stringAux st.read_char []

/-- The loop of `read_number` (`src/lexer.rs` lines 161–172). -/
def Lexer.read_number (st : Lexer) (acc : List Char) : List Char × Lexer :=
  match h : st.ch with
  | some c =>
    if isNumChar c then Lexer.read_number st.read_char (acc ++ [c]) else (acc, st)
  | none => (acc, st)
termination_by st.fuel
decreasing_by exact Lexer.fuel_read_char_lt st (by rw [h]; rfl)

/-- The loop of `read_literal` (`src/lexer.rs` lines 178–186). -/
def Lexer.read_literalAux (isAlpha : Char → Bool) (st : Lexer) (acc : List Char) :
    List Char × Lexer :=
  match h : st.ch with
  | some c =>
    if isAlpha c then Lexer.read_literalAux isAlpha st.read_char (acc ++ [c]) else (acc, st)
  | none => (acc, st)
termination_by st.fuel
decreasing_by exact Lexer.fuel_read_char_lt st (by rw [h]; rfl)

/-- `read_literal` (`src/lexer.rs` lines 177–193): the maximal alphabetic
run, matched against the keyword table. -/
def Lexer.read_literal (α : Type) (isAlpha : Char → Bool) (st : Lexer) :
    Option (Token α) × Lexer :=
  let r := Lexer.read_literalAux isAlpha st []
  (keywordToken α (String.mk r.1), r.2)

/-- `next_token` (`src/lexer.rs` lines 41–91) on the byte-cursor state. -/
def Lexer.next_token {α : Type} (M : LexModel α) (st : Lexer) : Option (Token α) × Lexer :=
  let st := st.skip_whitespace
  match st.ch with
  | none => (none, st)
  | some c =>
    if c = '\x7b' then (some Token.leftBrace, st.read_char)
    else if c = '\x7d' then (some Token.rightBrace, st.read_char)
    else if c = '[' then (some Token.leftBracket, st.read_char)
    else if c = ']' then (some Token.rightBracket, st.read_char)
    else if c = ':' then (some Token.colon, st.read_char)
    else if c = ',' then (some Token.comma, st.read_char)
    else if c = '"' then
      let r := st.read_string
      (some (Token.string (String.mk r.1)), r.2)
    else if c.isDigit || c = '-' || c = '+' then
      let r := st.read_number []
      ((match M.parseF64 r.1 with
        | some n => some (Token.number n)
        | none => none), r.2)
    else if M.isAlphabetic c then Lexer.read_literal α M.isAlphabetic st
    else (none, st.read_char)

/-- The lexer state after `n` `next_token()` calls. -/
def Lexer.iter {α : Type} (M : LexModel α) : Nat → Lexer → Lexer
  | 0, st => st
  | n + 1, st => Lexer.iter M n (Lexer.next_token M st).2

/-- The cursor invariant: `read_position` is the byte length of a prefix
of the input, and `position` trails it by the byte size of the current
character (or coincides with it at end of input). -/
def LexInv (st : Lexer) : Prop :=
  ∃ pre suf, st.input = pre ++ suf ∧ utf8Len pre = st.read_position ∧
    (match st.ch with
     | none => st.position = st.read_position
     | some c => st.position + c.utf8Size = st.read_position)

theorem utf8Len_append (a b : List Char) : utf8Len (a ++ b) = utf8Len a + utf8Len b := by
  induction a with
  | nil => simp [utf8Len]
  | cons c a ih => simp [utf8Len, ih]; omega

theorem charAtB_append (pre : List Char) (c : Char) (suf : List Char) :
    charAtB (pre ++ c :: suf) (utf8Len pre) = some c := by
  induction pre with
  | nil => simp [charAtB, utf8Len]
  | cons d pre ih =>
    have hd := d.utf8Size_pos
    simp only [List.cons_append, charAtB, utf8Len]
    rw [if_neg (by omega), if_neg (by omega)]
    simpa using ih

theorem LexInv.read_char {st : Lexer} (h : LexInv st) : LexInv st.read_char := by
  obtain ⟨pre, suf, hin, hrp, hch⟩ := h
  by_cases hge : st.read_position ≥ utf8Len st.input
  · have hsuf : utf8Len suf = 0 := by
      rw [hin, utf8Len_append] at hge
      omega
    refine ⟨pre, suf, hin, ?_, ?_⟩ <;>
      simp only [Lexer.read_char, hge, if_true] <;> simpa using hrp
  · have hlt : st.read_position < utf8Len st.input := by omega
    have hsufne : suf ≠ [] := by
      intro hs
      rw [hin, hs, utf8Len_append] at hlt
      simp [utf8Len] at hlt
      omega
    obtain ⟨c, suf', rfl⟩ := List.exists_cons_of_ne_nil hsufne
    have hat : charAtB st.input st.read_position = some c := by
      rw [hin, ← hrp]
      exact charAtB_append pre c suf'
    refine ⟨pre ++ [c], suf', by simpa using hin, ?_, ?_⟩ <;>
      simp only [Lexer.read_char, hge, if_false, hat, utf8Len_append, utf8Len] <;>
      omega

theorem LexInv.new (input : List Char) : LexInv (Lexer.new input) :=
  LexInv.read_char ⟨[], input, rfl, rfl, rfl⟩

theorem LexInv.skip_whitespace_rec :
    ∀ (n : Nat) (st : Lexer), st.fuel ≤ n → LexInv st → LexInv st.skip_whitespace := by
  intro n
  induction n with
  | zero =>
    intro st hf h
    rw [Lexer.skip_whitespace]
    split
    · rename_i c hch
      have h0 : st.read_char.fuel < st.fuel := Lexer.fuel_read_char_lt st (by rw [hch]; rfl)
      exact absurd hf (by omega)
    · exact h
  | succ n ih =>
    intro st hf h
    rw [Lexer.skip_whitespace]
    split
    · rename_i c hch
      have h0 : st.read_char.fuel < st.fuel := Lexer.fuel_read_char_lt st (by rw [hch]; rfl)
      split_ifs
      · exact ih _ (by omega) h.read_char
      · exact h
    · exact h

theorem LexInv.skip_whitespace {st : Lexer} (h : LexInv st) : LexInv st.skip_whitespace :=
  LexInv.skip_whitespace_rec st.fuel st (le_refl _) h

set_option maxHeartbeats 2000000 in
theorem LexInv.read_stringAux_rec :
    ∀ (n : Nat) (st : Lexer) (acc : List Char), st.fuel ≤ n → LexInv st →
      LexInv (st.read_stringAux acc).2 := by
  intro n
  induction n with
  | zero =>
    intro st acc hf h
    rw [Lexer.read_stringAux]
    split
    · exact h
    · rename_i c hch
      have h0 : st.read_char.fuel < st.fuel := Lexer.fuel_read_char_lt st (by rw [hch]; rfl)
      exact absurd hf (by omega)
  | succ n ih =>
    intro st acc hf h
    rw [Lexer.read_stringAux]
    split
    · exact h
    · rename_i c hch
      have h0 : st.read_char.fuel < st.fuel := Lexer.fuel_read_char_lt st (by rw [hch]; rfl)
      have h1 := Lexer.fuel_read_char_le st.read_char
      have h2 := Lexer.fuel_read_char_le st.read_char.read_char
      have h3 := Lexer.fuel_read_char_le st.read_char.read_char.read_char
      have h4 := Lexer.fuel_read_char_le st.read_char.read_char.read_char.read_char
      have h5 := Lexer.fuel_read_char_le st.read_char.read_char.read_char.read_char.read_char
      have hc1 : LexInv st.read_char := h.read_char
      split_ifs
      · exact hc1
      · split
        · exact ih _ _ (by omega) hc1.read_char
        · split_ifs <;>
            first
            | exact ih _ _ (by omega) hc1.read_char
            | exact ih _ _ (by omega) hc1.read_char.read_char.read_char.read_char.read_char
      · exact ih _ _ (by omega) hc1

theorem LexInv.read_stringAux {st : Lexer} (acc : List Char) (h : LexInv st) :
    LexInv (st.read_stringAux acc).2 :=
  LexInv.read_stringAux_rec st.fuel st acc (le_refl _) h

theorem LexInv.read_number_rec :
    ∀ (n : Nat) (st : Lexer) (acc : List Char), st.fuel ≤ n → LexInv st →
      LexInv (st.read_number acc).2 := by
  intro n
  induction n with
  | zero =>
    intro st acc hf h
    rw [Lexer.read_number]
    split
    · rename_i c hch
      have h0 : st.read_char.fuel < st.fuel := Lexer.fuel_read_char_lt st (by rw [hch]; rfl)
      exact absurd hf (by omega)
    · exact h
  | succ n ih =>
    intro st acc hf h
    rw [Lexer.read_number]
    split
    · rename_i c hch
      have h0 : st.read_char.fuel < st.fuel := Lexer.fuel_read_char_lt st (by rw [hch]; rfl)
      split_ifs
      · exact ih _ _ (by omega) h.read_char
      · exact h
    · exact h

theorem LexInv.read_number {st : Lexer} (acc : List Char) (h : LexInv st) :
    LexInv (st.read_number acc).2 :=
  LexInv.read_number_rec st.fuel st acc (le_refl _) h

theorem LexInv.read_literalAux_rec (isAlpha : Char → Bool) :
    ∀ (n : Nat) (st : Lexer) (acc : List Char), st.fuel ≤ n → LexInv st →
      LexInv (Lexer.read_literalAux isAlpha st acc).2 := by
  intro n
  induction n with
  | zero =>
    intro st acc hf h
    rw [Lexer.read_literalAux]
    split
    · rename_i c hch
      have h0 : st.read_char.fuel < st.fuel := Lexer.fuel_read_char_lt st (by rw [hch]; rfl)
      exact absurd hf (by omega)
    · exact h
  | succ n ih =>
    intro st acc hf h
    rw [Lexer.read_literalAux]
    split
    · rename_i c hch
      have h0 : st.read_char.fuel < st.fuel := Lexer.fuel_read_char_lt st (by rw [hch]; rfl)
      split_ifs
      · exact ih _ _ (by omega) h.read_char
      · exact h
    · exact h

theorem LexInv.read_literalAux (isAlpha : Char → Bool) {st : Lexer} (acc : List Char)
    (h : LexInv st) : LexInv (Lexer.read_literalAux isAlpha st acc).2 :=
  LexInv.read_literalAux_rec isAlpha st.fuel st acc (le_refl _) h

/-- The cursor invariant survives one `next_token()` call. -/
theorem LexInv.next_token {α : Type} (M : LexModel α) {st : Lexer} (h : LexInv st) :
    LexInv (Lexer.next_token M st).2 := by
  have hsw : LexInv st.skip_whitespace := h.skip_whitespace
  unfold Lexer.next_token
  cases hch : st.skip_whitespace.ch with
  | none => simpa [hch] using hsw
  | some c =>
    simp only [hch]
    split_ifs <;>
      first
      | exact hsw.read_char
      | exact LexInv.read_stringAux _ hsw.read_char
      | exact LexInv.read_number _ hsw
      | exact LexInv.read_literalAux _ _ hsw

theorem LexInv.iter {α : Type} (M : LexModel α) :
    ∀ (n : Nat) (st : Lexer), LexInv st → LexInv (Lexer.iter M n st) := by
  intro n
  induction n with
  | zero => exact fun st h => h
  | succ n ih => exact fun st h => ih _ (h.next_token M)

/-!  ## The parser

`Parser` from `src/parser.rs`: it owns the lexer and a one-token
lookahead `current_token`.  Its whole interaction with the lexer is
`next_token()`, whose successive results on a fixed input are the
elements of `tokenList` (and `none` once that list is exhausted), so the
parser is modelled on the lookahead together with the list of pending
pull results; `padv` is `Parser::next_token`. -/

/-- `object.insert(key, value)` on `JsonObject = IndexMap`: an existing
key keeps its slot and gets the new value, a new key is appended. -/
def insertIdx {α : Type} (m : List (String × JsonValue α)) (k : String) (v : JsonValue α) :
    List (String × JsonValue α) :=
  if m.any (fun p => p.1 = k) then
    m.map (fun p => if p.1 = k then (k, v) else p)
  else m ++ [(k, v)]

/-- `Parser::next_token` (`src/parser.rs` lines 161–163): pull the next
`Option<Token>` into the lookahead.  Past the end of the pull list every
pull yields `none` with nothing pending. -/
def padv {α : Type} : List (Option (Token α)) → Option (Token α) × List (Option (Token α))
  | [] => (none, [])
  | t :: r => (t, r)

/-- Measure on a parser state: twice the pending pulls, plus one when a
lookahead token is loaded.  Every parser step leaves its value no larger
(the bound carried by `PRes`). -/
def pmes {α : Type} (cur : Option (Token α)) (L : List (Option (Token α))) : Nat :=
  2 * L.length + (match cur with | some _ => 1 | none => 0)

theorem pmes_some {α : Type} (t : Token α) (L : List (Option (Token α))) :
    pmes (some t) L = 2 * L.length + 1 := rfl

theorem pmes_none {α : Type} (L : List (Option (Token α))) :
    pmes (none : Option (Token α)) L = 2 * L.length := rfl

theorem pmes_padv_le {α : Type} (L : List (Option (Token α))) :
    pmes (padv L).1 (padv L).2 ≤ 2 * L.length := by
  cases L with
  | nil => simp [padv, pmes]
  | cons t r => cases t <;> simp [padv, pmes_some, pmes_none] <;> omega

/-- A parser step's result: the parsed value (or the absent-value
sentinel) and the state after it, which never exceeds the entry state's
measure. -/
def PRes (α : Type) (cur : Option (Token α)) (L : List (Option (Token α))) : Type :=
  { p : Option (JsonValue α) × Option (Token α) × List (Option (Token α)) //
      pmes p.2.1 p.2.2 ≤ pmes cur L }

mutual

/-- `parse_value` (`src/parser.rs` lines 35–63): dispatch on the
lookahead; atoms advance and return their value, `{`/`[` recurse, any
other lookahead (end of stream included) returns the absent value
without advancing. -/
def parseValueA {α : Type} (cur : Option (Token α)) (L : List (Option (Token α))) :
    PRes α cur L :=
  match cur with
  | some Token.leftBrace => parseObjectA (some Token.leftBrace) L
  | some Token.leftBracket => parseArrayA (some Token.leftBracket) L
  | some (Token.string s) =>
    ⟨(some (JsonValue.string s), padv L),
      le_trans (pmes_padv_le L) (by rw [pmes_some]; omega)⟩
  | some (Token.number n) =>
    ⟨(some (JsonValue.number n), padv L),
      le_trans (pmes_padv_le L) (by rw [pmes_some]; omega)⟩
  | some Token.true =>
    ⟨(some JsonValue.true, padv L),
      le_trans (pmes_padv_le L) (by rw [pmes_some]; omega)⟩
  | some Token.false =>
    ⟨(some JsonValue.false, padv L),
      le_trans (pmes_padv_le L) (by rw [pmes_some]; omega)⟩
  | some Token.null =>
    ⟨(some JsonValue.null, padv L),
      le_trans (pmes_padv_le L) (by rw [pmes_some]; omega)⟩
  | c => ⟨(none, c, L), le_refl _⟩
termination_by 4 * pmes cur L + 2
decreasing_by all_goals omega

/-- `parse_object` (`src/parser.rs` lines 69–116): consume `{` (fail if
the lookahead is anything else), return the empty object on an immediate
`}`, otherwise run the entry loop. -/
def parseObjectA {α : Type} (cur : Option (Token α)) (L : List (Option (Token α))) :
    PRes α cur L :=
  match cur with
  | some Token.leftBrace =>
    match h1 : padv L with
    | (some Token.rightBrace, L1) =>
      ⟨(some (JsonValue.object []), padv L1), by
        show pmes (padv L1).1 (padv L1).2 ≤ pmes (some Token.leftBrace) L
        have ha := pmes_padv_le (α := α) L
        rw [h1] at ha
        have ha2 : 2 * L1.length + 1 ≤ 2 * L.length := ha
        have hb := pmes_padv_le (α := α) L1
        rw [pmes_some]
        omega⟩
    | (c1, L1) =>
      let r := parseObjLoopA ([] : List (String × JsonValue α)) c1 L1
      ⟨r.val, by
        have ha := pmes_padv_le (α := α) L
        rw [h1] at ha
        have ha2 : pmes c1 L1 ≤ 2 * L.length := ha
        have hb := r.2
        rw [pmes_some]
        omega⟩
  | c => ⟨(none, c, L), le_refl _⟩
termination_by 4 * pmes cur L + 1
decreasing_by
  all_goals {
    have ha := pmes_padv_le (α := α) L
    rw [h1] at ha
    have ha2 : pmes c1 L1 ≤ 2 * L.length := ha
    rw [pmes_some]
    omega
  }

/-- The entry loop of `parse_object` (`src/parser.rs` lines 84–114): the
lookahead must be a string key; advance; expect `:` and advance (fail
without advancing past it otherwise); parse the value, inserting it on
success and dropping the key on failure; then a `,` continues the loop
and a `}` returns the object, anything else fails. -/
def parseObjLoopA {α : Type} (acc : List (String × JsonValue α)) (cur : Option (Token α))
    (L : List (Option (Token α))) : PRes α cur L :=
  match cur with
  | some (Token.string k) =>
    match h2 : padv L with
    | (some Token.colon, L2) =>
      match h3 : padv L2 with
      | (c3, L3) =>
        let r := parseValueA c3 L3
        match hr : r.val with
        | (v, some Token.comma, L4) =>
          let acc' := match v with | some w => insertIdx acc k w | none => acc
          match h5 : padv L4 with
          | (c5, L5) =>
            let r2 := parseObjLoopA acc' c5 L5
            ⟨r2.val, by
              have ha := pmes_padv_le (α := α) L
              rw [h2] at ha
              have ha2 : 2 * L2.length + 1 ≤ 2 * L.length := ha
              have hb := pmes_padv_le (α := α) L2
              rw [h3] at hb
              have hb2 : pmes c3 L3 ≤ 2 * L2.length := hb
              have hc := r.2
              rw [hr] at hc
              have hc2 : 2 * L4.length + 1 ≤ pmes c3 L3 := hc
              have hd := pmes_padv_le (α := α) L4
              rw [h5] at hd
              have hd2 : pmes c5 L5 ≤ 2 * L4.length := hd
              have he := r2.2
              rw [pmes_some]
              omega⟩
        | (v, some Token.rightBrace, L4) =>
          let acc' := match v with | some w => insertIdx acc k w | none => acc
          ⟨(some (JsonValue.object acc'), padv L4), by
            show pmes (padv L4).1 (padv L4).2 ≤ pmes (some (Token.string k)) L
            have ha := pmes_padv_le (α := α) L
            rw [h2] at ha
            have ha2 : 2 * L2.length + 1 ≤ 2 * L.length := ha
            have hb := pmes_padv_le (α := α) L2
            rw [h3] at hb
            have hb2 : pmes c3 L3 ≤ 2 * L2.length := hb
            have hc := r.2
            rw [hr] at hc
            have hc2 : 2 * L4.length + 1 ≤ pmes c3 L3 := hc
            have hd := pmes_padv_le (α := α) L4
            rw [pmes_some]
            omega⟩
        | (v, c4, L4) =>
          ⟨(none, c4, L4), by
            show pmes c4 L4 ≤ pmes (some (Token.string k)) L
            have ha := pmes_padv_le (α := α) L
            rw [h2] at ha
            have ha2 : 2 * L2.length + 1 ≤ 2 * L.length := ha
            have hb := pmes_padv_le (α := α) L2
            rw [h3] at hb
            have hb2 : pmes c3 L3 ≤ 2 * L2.length := hb
            have hc := r.2
            rw [hr] at hc
            have hc2 : pmes c4 L4 ≤ pmes c3 L3 := hc
            rw [pmes_some]
            omega⟩
    | (c2, L2) =>
      ⟨(none, c2, L2), by
        show pmes c2 L2 ≤ pmes (some (Token.string k)) L
        have ha := pmes_padv_le (α := α) L
        rw [h2] at ha
        have ha2 : pmes c2 L2 ≤ 2 * L.length := ha
        rw [pmes_some]
        omega⟩
  | c => ⟨(none, c, L), le_refl _⟩
termination_by 4 * pmes cur L + 3
decreasing_by
  · have ha := pmes_padv_le (α := α) L
    rw [h2] at ha
    have ha2 : 2 * L2.length + 1 ≤ 2 * L.length := ha
    have hb := pmes_padv_le (α := α) L2
    rw [h3] at hb
    have hb2 : pmes c3 L3 ≤ 2 * L2.length := hb
    rw [pmes_some]
    omega
  · have ha := pmes_padv_le (α := α) L
    rw [h2] at ha
    have ha2 : 2 * L2.length + 1 ≤ 2 * L.length := ha
    have hb := pmes_padv_le (α := α) L2
    rw [h3] at hb
    have hb2 : pmes c3 L3 ≤ 2 * L2.length := hb
    have hc := r.2
    rw [hr] at hc
    have hc2 : 2 * L4.length + 1 ≤ pmes c3 L3 := hc
    have hd := pmes_padv_le (α := α) L4
    rw [h5] at hd
    have hd2 : pmes c5 L5 ≤ 2 * L4.length := hd
    rw [pmes_some]
    omega

/-- `parse_array` (`src/parser.rs` lines 121–133): consume `[` (fail if
the lookahead is anything else), return the empty array on an immediate
`]`, otherwise run the element loop. -/
def parseArrayA {α : Type} (cur : Option (Token α)) (L : List (Option (Token α))) :
    PRes α cur L :=
  match cur with
  | some Token.leftBracket =>
    match h1 : padv L with
    | (some Token.rightBracket, L1) =>
      ⟨(some (JsonValue.array []), padv L1), by
        show pmes (padv L1).1 (padv L1).2 ≤ pmes (some Token.leftBracket) L
        have ha := pmes_padv_le (α := α) L
        rw [h1] at ha
        have ha2 : 2 * L1.length + 1 ≤ 2 * L.length := ha
        have hb := pmes_padv_le (α := α) L1
        rw [pmes_some]
        omega⟩
    | (c1, L1) =>
      let r := parseArrLoopA ([] : List (JsonValue α)) c1 L1
      ⟨r.val, by
        have ha := pmes_padv_le (α := α) L
        rw [h1] at ha
        have ha2 : pmes c1 L1 ≤ 2 * L.length := ha
        have hb := r.2
        rw [pmes_some]
        omega⟩
  | c => ⟨(none, c, L), le_refl _⟩
termination_by 4 * pmes cur L + 1
decreasing_by
  all_goals {
    have ha := pmes_padv_le (α := α) L
    rw [h1] at ha
    have ha2 : pmes c1 L1 ≤ 2 * L.length := ha
    rw [pmes_some]
    omega
  }

/-- The element loop of `parse_array` (`src/parser.rs` lines 136–153):
parse a value, appending it on success and skipping it on failure; then a
`,` continues the loop and a `]` returns the array, anything else
fails. -/
def parseArrLoopA {α : Type} (acc : List (JsonValue α)) (cur : Option (Token α))
    (L : List (Option (Token α))) : PRes α cur L :=
  let r := parseValueA cur L
  match hr : r.val with
  | (v, some Token.comma, L4) =>
    let acc' := match v with | some w => acc ++ [w] | none => acc
    match h5 : padv L4 with
    | (c5, L5) =>
      let r2 := parseArrLoopA acc' c5 L5
      ⟨r2.val, by
        have hc := r.2
        rw [hr] at hc
        have hc2 : 2 * L4.length + 1 ≤ pmes cur L := hc
        have hd := pmes_padv_le (α := α) L4
        rw [h5] at hd
        have hd2 : pmes c5 L5 ≤ 2 * L4.length := hd
        have he := r2.2
        omega⟩
  | (v, some Token.rightBracket, L4) =>
    let acc' := match v with | some w => acc ++ [w] | none => acc
    ⟨(some (JsonValue.array acc'), padv L4), by
      show pmes (padv L4).1 (padv L4).2 ≤ pmes cur L
      have hc := r.2
      rw [hr] at hc
      have hc2 : 2 * L4.length + 1 ≤ pmes cur L := hc
      have hd := pmes_padv_le (α := α) L4
      omega⟩
  | (v, c4, L4) =>
    ⟨(none, c4, L4), by
      show pmes c4 L4 ≤ pmes cur L
      have hc := r.2
      rw [hr] at hc
      exact hc⟩
termination_by 4 * pmes cur L + 3
decreasing_by
  · omega
  · have hc := r.2
    rw [hr] at hc
    have hc2 : 2 * L4.length + 1 ≤ pmes cur L := hc
    have hd := pmes_padv_le (α := α) L4
    rw [h5] at hd
    have hd2 : pmes c5 L5 ≤ 2 * L4.length := hd
    omega

end

/-- `parse_value` as a plain state function: the parsed value (or the
absent-value sentinel) together with the lookahead and pending pulls
after the call. -/
def parseValue {α : Type} (cur : Option (Token α)) (L : List (Option (Token α))) :
    Option (JsonValue α) × Option (Token α) × List (Option (Token α)) :=
  (parseValueA cur L).val

/-- `parse_object` as a plain state function. -/
def parseObject {α : Type} (cur : Option (Token α)) (L : List (Option (Token α))) :
    Option (JsonValue α) × Option (Token α) × List (Option (Token α)) :=
  (parseObjectA cur L).val

/-- The entry loop of `parse_object` as a plain state function. -/
def parseObjLoop {α : Type} (acc : List (String × JsonValue α)) (cur : Option (Token α))
    (L : List (Option (Token α))) :
    Option (JsonValue α) × Option (Token α) × List (Option (Token α)) :=
  (parseObjLoopA acc cur L).val

/-- `parse_array` as a plain state function. -/
def parseArray {α : Type} (cur : Option (Token α)) (L : List (Option (Token α))) :
    Option (JsonValue α) × Option (Token α) × List (Option (Token α)) :=
  (parseArrayA cur L).val

/-- The element loop of `parse_array` as a plain state function. -/
def parseArrLoop {α : Type} (acc : List (JsonValue α)) (cur : Option (Token α))
    (L : List (Option (Token α))) :
    Option (JsonValue α) × Option (Token α) × List (Option (Token α)) :=
  (parseArrLoopA acc cur L).val

/-- `Parser::new` then `parse()` over a list of pending pull results:
prime the lookahead with one pull (`src/parser.rs` lines 16–23), then
`parse_value` (lines 28–30). -/
def parseToks {α : Type} (L : List (Option (Token α))) : Option (JsonValue α) :=
  (parseValue (padv L).1 (padv L).2).1

/-- The composite program `Parser::new(Lexer::new(input)).parse()`. -/
def parse {α : Type} (M : LexModel α) (s : List Char) : Option (JsonValue α) :=
  parseToks (tokenList M s)

/-- `if let Some(value) = self.parse_value() { object.insert(key, value) }`:
the object accumulator after a value parse (key dropped on failure). -/
def accInsert {α : Type} (acc : List (String × JsonValue α)) (k : String)
    (v : Option (JsonValue α)) : List (String × JsonValue α) :=
  match v with
  | some w => insertIdx acc k w
  | none => acc

/-- `if let Some(value) = self.parse_value() { array.push(value) }`: the
array accumulator after a value parse (element dropped on failure). -/
def accPush {α : Type} (acc : List (JsonValue α)) (v : Option (JsonValue α)) :
    List (JsonValue α) :=
  match v with
  | some w => acc ++ [w]
  | none => acc

/-!  Step equations for the parser, one per decision the source makes. -/

theorem parseValue_leftBrace {α : Type} (L : List (Option (Token α))) :
    parseValue (some Token.leftBrace) L = parseObject (some Token.leftBrace) L := by
  unfold parseValue parseObject
  rw [parseValueA.eq_def]

theorem parseValue_leftBracket {α : Type} (L : List (Option (Token α))) :
    parseValue (some Token.leftBracket) L = parseArray (some Token.leftBracket) L := by
  unfold parseValue parseArray
  rw [parseValueA.eq_def]

theorem parseValue_string {α : Type} (s : String) (L : List (Option (Token α))) :
    parseValue (some (Token.string s)) L = (some (JsonValue.string s), padv L) := by
  unfold parseValue
  rw [parseValueA.eq_def]

theorem parseValue_number {α : Type} (n : α) (L : List (Option (Token α))) :
    parseValue (some (Token.number n)) L = (some (JsonValue.number n), padv L) := by
  unfold parseValue
  rw [parseValueA.eq_def]

theorem parseValue_true {α : Type} (L : List (Option (Token α))) :
    parseValue (some (Token.true : Token α)) L = (some JsonValue.true, padv L) := by
  unfold parseValue
  rw [parseValueA.eq_def]

theorem parseValue_false {α : Type} (L : List (Option (Token α))) :
    parseValue (some (Token.false : Token α)) L = (some JsonValue.false, padv L) := by
  unfold parseValue
  rw [parseValueA.eq_def]

theorem parseValue_null {α : Type} (L : List (Option (Token α))) :
    parseValue (some (Token.null : Token α)) L = (some JsonValue.null, padv L) := by
  unfold parseValue
  rw [parseValueA.eq_def]

theorem parseValue_none {α : Type} (L : List (Option (Token α))) :
    parseValue (none : Option (Token α)) L = (none, none, L) := by
  unfold parseValue
  rw [parseValueA.eq_def]

theorem parseValue_colon {α : Type} (L : List (Option (Token α))) :
    parseValue (some (Token.colon : Token α)) L = (none, some Token.colon, L) := by
  unfold parseValue
  rw [parseValueA.eq_def]

theorem parseValue_comma {α : Type} (L : List (Option (Token α))) :
    parseValue (some (Token.comma : Token α)) L = (none, some Token.comma, L) := by
  unfold parseValue
  rw [parseValueA.eq_def]

theorem parseValue_rightBrace {α : Type} (L : List (Option (Token α))) :
    parseValue (some (Token.rightBrace : Token α)) L = (none, some Token.rightBrace, L) := by
  unfold parseValue
  rw [parseValueA.eq_def]

theorem parseValue_rightBracket {α : Type} (L : List (Option (Token α))) :
    parseValue (some (Token.rightBracket : Token α)) L =
      (none, some Token.rightBracket, L) := by
  unfold parseValue
  rw [parseValueA.eq_def]

theorem parseObject_empty {α : Type} {L L1 : List (Option (Token α))}
    (h : padv L = (some Token.rightBrace, L1)) :
    parseObject (some Token.leftBrace) L = (some (JsonValue.object []), padv L1) := by
  unfold parseObject
  rw [parseObjectA.eq_def]
  split
  · rename_i L1a heq
    rw [h] at heq
    injection heq with he1 he2
    subst he2
    rfl
  · rename_i c1a L1a hx heq
    rw [h] at heq
    injection heq with he1 he2
    exact absurd he1.symm hx

theorem parseObject_loop {α : Type} {L L1 : List (Option (Token α))} {c1 : Option (Token α)}
    (h : padv L = (c1, L1)) (hne : c1 ≠ some Token.rightBrace) :
    parseObject (some Token.leftBrace) L = parseObjLoop [] c1 L1 := by
  unfold parseObject parseObjLoop
  rw [parseObjectA.eq_def]
  split
  · rename_i L1a heq
    rw [h] at heq
    injection heq with he1 he2
    exact absurd he1 hne
  · rename_i c1a L1a hx heq
    rw [h] at heq
    injection heq with he1 he2
    subst he1
    subst he2
    rfl

theorem parseObjLoop_noKey {α : Type} (acc : List (String × JsonValue α))
    (cur : Option (Token α)) (L : List (Option (Token α)))
    (h : ∀ k, cur ≠ some (Token.string k)) :
    parseObjLoop acc cur L = (none, cur, L) := by
  unfold parseObjLoop
  rw [parseObjLoopA.eq_2]
  exact fun k hk => (h k hk).elim

theorem parseObjLoop_noColon {α : Type} (acc : List (String × JsonValue α)) (k : String)
    {L L2 : List (Option (Token α))} {c2 : Option (Token α)}
    (h : padv L = (c2, L2)) (hne : c2 ≠ some Token.colon) :
    parseObjLoop acc (some (Token.string k)) L = (none, c2, L2) := by
  unfold parseObjLoop
  rw [parseObjLoopA.eq_1]
  split
  · rename_i L2a heq
    rw [h] at heq
    injection heq with he1 he2
    exact absurd he1 hne
  · rename_i c2a L2a hx heq
    rw [h] at heq
    injection heq with he1 he2
    subst he1
    subst he2
    rfl

theorem parseObjLoop_comma {α : Type} (acc : List (String × JsonValue α)) (k : String)
    {L L2 L3 L4 : List (Option (Token α))} {c3 : Option (Token α)}
    {v : Option (JsonValue α)}
    (h1 : padv L = (some Token.colon, L2)) (h2 : padv L2 = (c3, L3))
    (h3 : parseValue c3 L3 = (v, some Token.comma, L4)) :
    parseObjLoop acc (some (Token.string k)) L =
      parseObjLoop (accInsert acc k v) (padv L4).1 (padv L4).2 := by
  unfold parseValue at h3
  unfold parseObjLoop
  rw [parseObjLoopA.eq_1]
  split
  · rename_i L2a heq
    rw [h1] at heq
    injection heq with he1 he2
    subst he2
    split
    · rename_i c3a L3a heq2
      rw [h2] at heq2
      injection heq2 with hf1 hf2
      subst hf1
      subst hf2
      dsimp only
      split
      · rename_i va L4a hr
        rw [h3] at hr
        injection hr with hg1 hg2
        injection hg2 with hg2a hg2b
        subst hg1
        subst hg2b
        cases v <;> rfl
      · rename_i va L4a hr
        rw [h3] at hr
        injection hr with hg1 hg2
        injection hg2 with hg2a hg2b
        exact Token.noConfusion (Option.some.inj hg2a)
      · rename_i va c4a L4a hx1 hx2 hr
        rw [h3] at hr
        injection hr with hg1 hg2
        injection hg2 with hg2a hg2b
        exact absurd hg2a.symm hx1
  · rename_i c2a L2a hx heq
    rw [h1] at heq
    injection heq with he1 he2
    exact absurd he1.symm hx

theorem parseObjLoop_rightBrace {α : Type} (acc : List (String × JsonValue α)) (k : String)
    {L L2 L3 L4 : List (Option (Token α))} {c3 : Option (Token α)}
    {v : Option (JsonValue α)}
    (h1 : padv L = (some Token.colon, L2)) (h2 : padv L2 = (c3, L3))
    (h3 : parseValue c3 L3 = (v, some Token.rightBrace, L4)) :
    parseObjLoop acc (some (Token.string k)) L =
      (some (JsonValue.object (accInsert acc k v)), padv L4) := by
  unfold parseValue at h3
  unfold parseObjLoop
  rw [parseObjLoopA.eq_1]
  split
  · rename_i L2a heq
    rw [h1] at heq
    injection heq with he1 he2
    subst he2
    split
    · rename_i c3a L3a heq2
      rw [h2] at heq2
      injection heq2 with hf1 hf2
      subst hf1
      subst hf2
      dsimp only
      split
      · rename_i va L4a hr
        rw [h3] at hr
        injection hr with hg1 hg2
        injection hg2 with hg2a hg2b
        exact Token.noConfusion (Option.some.inj hg2a)
      · rename_i va L4a hr
        rw [h3] at hr
        injection hr with hg1 hg2
        injection hg2 with hg2a hg2b
        subst hg1
        subst hg2b
        cases v <;> rfl
      · rename_i va c4a L4a hx1 hx2 hr
        rw [h3] at hr
        injection hr with hg1 hg2
        injection hg2 with hg2a hg2b
        exact absurd hg2a.symm hx2
  · rename_i c2a L2a hx heq
    rw [h1] at heq
    injection heq with he1 he2
    exact absurd he1.symm hx

theorem parseObjLoop_fail {α : Type} (acc : List (String × JsonValue α)) (k : String)
    {L L2 L3 L4 : List (Option (Token α))} {c3 c4 : Option (Token α)}
    {v : Option (JsonValue α)}
    (h1 : padv L = (some Token.colon, L2)) (h2 : padv L2 = (c3, L3))
    (h3 : parseValue c3 L3 = (v, c4, L4))
    (hne1 : c4 ≠ some Token.comma) (hne2 : c4 ≠ some Token.rightBrace) :
    parseObjLoop acc (some (Token.string k)) L = (none, c4, L4) := by
  unfold parseValue at h3
  unfold parseObjLoop
  rw [parseObjLoopA.eq_1]
  split
  · rename_i L2a heq
    rw [h1] at heq
    injection heq with he1 he2
    subst he2
    split
    · rename_i c3a L3a heq2
      rw [h2] at heq2
      injection heq2 with hf1 hf2
      subst hf1
      subst hf2
      dsimp only
      split
      · rename_i va L4a hr
        rw [h3] at hr
        injection hr with hg1 hg2
        injection hg2 with hg2a hg2b
        exact absurd hg2a hne1
      · rename_i va L4a hr
        rw [h3] at hr
        injection hr with hg1 hg2
        injection hg2 with hg2a hg2b
        exact absurd hg2a hne2
      · rename_i va c4a L4a hx1 hx2 hr
        rw [h3] at hr
        injection hr with hg1 hg2
        injection hg2 with hg2a hg2b
        subst hg2a
        subst hg2b
        rfl
  · rename_i c2a L2a hx heq
    rw [h1] at heq
    injection heq with he1 he2
    exact absurd he1.symm hx

theorem parseArray_empty {α : Type} {L L1 : List (Option (Token α))}
    (h : padv L = (some Token.rightBracket, L1)) :
    parseArray (some Token.leftBracket) L = (some (JsonValue.array []), padv L1) := by
  unfold parseArray
  rw [parseArrayA.eq_def]
  split
  · rename_i L1a heq
    rw [h] at heq
    injection heq with he1 he2
    subst he2
    rfl
  · rename_i c1a L1a hx heq
    rw [h] at heq
    injection heq with he1 he2
    exact absurd he1.symm hx

theorem parseArray_loop {α : Type} {L L1 : List (Option (Token α))} {c1 : Option (Token α)}
    (h : padv L = (c1, L1)) (hne : c1 ≠ some Token.rightBracket) :
    parseArray (some Token.leftBracket) L = parseArrLoop [] c1 L1 := by
  unfold parseArray parseArrLoop
  rw [parseArrayA.eq_def]
  split
  · rename_i L1a heq
    rw [h] at heq
    injection heq with he1 he2
    exact absurd he1 hne
  · rename_i c1a L1a hx heq
    rw [h] at heq
    injection heq with he1 he2
    subst he1
    subst he2
    rfl

theorem parseArrLoop_comma {α : Type} (acc : List (JsonValue α))
    {cur : Option (Token α)} {L L4 : List (Option (Token α))} {v : Option (JsonValue α)}
    (h3 : parseValue cur L = (v, some Token.comma, L4)) :
    parseArrLoop acc cur L = parseArrLoop (accPush acc v) (padv L4).1 (padv L4).2 := by
  unfold parseValue at h3
  unfold parseArrLoop
  rw [parseArrLoopA.eq_1]
  split
  · rename_i va L4a hr
    rw [h3] at hr
    injection hr with hg1 hg2
    injection hg2 with hg2a hg2b
    subst hg1
    subst hg2b
    split
    · rename_i c5 L5 heq5
      have hc5 : (padv L4).1 = c5 := by rw [heq5]
      have hL5 : (padv L4).2 = L5 := by rw [heq5]
      rw [hc5, hL5]
      cases v <;> rfl
  · rename_i va L4a hr
    rw [h3] at hr
    injection hr with hg1 hg2
    injection hg2 with hg2a hg2b
    exact Token.noConfusion (Option.some.inj hg2a)
  · rename_i va c4a L4a hx1 hx2 hr
    rw [h3] at hr
    injection hr with hg1 hg2
    injection hg2 with hg2a hg2b
    exact absurd hg2a.symm hx1

theorem parseArrLoop_rightBracket {α : Type} (acc : List (JsonValue α))
    {cur : Option (Token α)} {L L4 : List (Option (Token α))} {v : Option (JsonValue α)}
    (h3 : parseValue cur L = (v, some Token.rightBracket, L4)) :
    parseArrLoop acc cur L = (some (JsonValue.array (accPush acc v)), padv L4) := by
  unfold parseValue at h3
  unfold parseArrLoop
  rw [parseArrLoopA.eq_1]
  split
  · rename_i va L4a hr
    rw [h3] at hr
    injection hr with hg1 hg2
    injection hg2 with hg2a hg2b
    exact Token.noConfusion (Option.some.inj hg2a)
  · rename_i va L4a hr
    rw [h3] at hr
    injection hr with hg1 hg2
    injection hg2 with hg2a hg2b
    subst hg1
    subst hg2b
    cases v <;> rfl
  · rename_i va c4a L4a hx1 hx2 hr
    rw [h3] at hr
    injection hr with hg1 hg2
    injection hg2 with hg2a hg2b
    exact absurd hg2a.symm hx2

theorem parseArrLoop_fail {α : Type} (acc : List (JsonValue α))
    {cur c4 : Option (Token α)} {L L4 : List (Option (Token α))} {v : Option (JsonValue α)}
    (h3 : parseValue cur L = (v, c4, L4))
    (hne1 : c4 ≠ some Token.comma) (hne2 : c4 ≠ some Token.rightBracket) :
    parseArrLoop acc cur L = (none, c4, L4) := by
  unfold parseValue at h3
  unfold parseArrLoop
  rw [parseArrLoopA.eq_1]
  split
  · rename_i va L4a hr
    rw [h3] at hr
    injection hr with hg1 hg2
    injection hg2 with hg2a hg2b
    exact absurd hg2a hne1
  · rename_i va L4a hr
    rw [h3] at hr
    injection hr with hg1 hg2
    injection hg2 with hg2a hg2b
    exact absurd hg2a hne2
  · rename_i va c4a L4a hx1 hx2 hr
    rw [h3] at hr
    injection hr with hg1 hg2
    injection hg2 with hg2a hg2b
    subst hg2a
    subst hg2b
    rfl

/-!  ## Round-trip infrastructure

The token sequence the printer's output lexes to, and the well-formedness
conditions under which printing then parsing restores a value. -/

/-- A comma token between entries or elements when more remain. -/
def commaSep {α β : Type} (r : List β) : List (Token α) :=
  match r with
  | [] => []
  | _ :: _ => [Token.comma]

mutual

/-- The tokens of a value's canonical (printed) form. -/
def tokensOf {α : Type} : JsonValue α → List (Token α)
  | JsonValue.object ms => Token.leftBrace :: (tokensOfEntries ms ++ [Token.rightBrace])
  | JsonValue.array vs => Token.leftBracket :: (tokensOfElems vs ++ [Token.rightBracket])
  | JsonValue.string s => [Token.string s]
  | JsonValue.number n => [Token.number n]
  | JsonValue.true => [Token.true]
  | JsonValue.false => [Token.false]
  | JsonValue.null => [Token.null]

/-- Tokens of an object body: `"key" : value`, commas between entries. -/
def tokensOfEntries {α : Type} : List (String × JsonValue α) → List (Token α)
  | [] => []
  | (k, v) :: r =>
    Token.string k :: Token.colon :: (tokensOf v ++ commaSep r ++ tokensOfEntries r)

/-- Tokens of an array body: values with commas between them. -/
def tokensOfElems {α : Type} : List (JsonValue α) → List (Token α)
  | [] => []
  | v :: r => tokensOf v ++ commaSep r ++ tokensOfElems r

end

/-- The keys of an object body, in order. -/
def keysOf {α : Type} (m : List (String × JsonValue α)) : List String :=
  m.map Prod.fst

/-- No key occurs twice in the entry list. -/
def keysDistinctB {α : Type} : List (String × JsonValue α) → Bool
  | [] => Bool.true
  | (k, _) :: r => (r.all fun p => p.1 != k) && keysDistinctB r

mutual

/-- Every object in the value has pairwise distinct keys (clause (b) of
the round-trip law: duplicate object keys are prohibited). -/
def wfKeys {α : Type} : JsonValue α → Bool
  | JsonValue.object ms => keysDistinctB ms && wfEntries ms
  | JsonValue.array vs => wfElems vs
  | _ => Bool.true

def wfEntries {α : Type} : List (String × JsonValue α) → Bool
  | [] => Bool.true
  | (_, v) :: r => wfKeys v && wfEntries r

def wfElems {α : Type} : List (JsonValue α) → Bool
  | [] => Bool.true
  | v :: r => wfKeys v && wfElems r

end

theorem keysDistinctB_nodup {α : Type} :
    ∀ m : List (String × JsonValue α), keysDistinctB m = true → (keysOf m).Nodup := by
  intro m
  induction m with
  | nil => intro _; simp [keysOf]
  | cons e r ih =>
    obtain ⟨k, v⟩ := e
    intro h
    simp only [keysDistinctB, Bool.and_eq_true] at h
    obtain ⟨hall, hr⟩ := h
    simp only [keysOf, List.map_cons, List.nodup_cons]
    refine ⟨?_, ih hr⟩
    intro hmem
    simp only [List.mem_map] at hmem
    obtain ⟨p, hp, hpk⟩ := hmem
    rw [List.all_eq_true] at hall
    have := hall p hp
    simp only [bne_iff_ne, ne_eq] at this
    exact this hpk

theorem insertIdx_append {α : Type} (acc : List (String × JsonValue α)) (k : String)
    (v : JsonValue α) (h : k ∉ keysOf acc) : insertIdx acc k v = acc ++ [(k, v)] := by
  unfold insertIdx
  rw [if_neg]
  simp only [List.any_eq_true, decide_eq_true_eq]
  rintro ⟨p, hp, hpk⟩
  exact h (by simp only [keysOf, List.mem_map]; exact ⟨p, hp, hpk⟩)

theorem tokensOf_head_not_rbracket {α : Type} (v : JsonValue α)
    (R : List (Option (Token α))) :
    (padv (List.map some (tokensOf v) ++ R)).1 ≠ some Token.rightBracket := by
  cases v <;> simp [tokensOf, padv]

theorem tokensOf_head_not_rbrace {α : Type} (v : JsonValue α)
    (R : List (Option (Token α))) :
    (padv (List.map some (tokensOf v) ++ R)).1 ≠ some Token.rightBrace := by
  cases v <;> simp [tokensOf, padv]


mutual

/-- Feeding the parser the canonical token stream of a well-formed value
`V`, followed by any further pulls `R`, yields `V` back and leaves the
parser looking at the first pull of `R`. -/
theorem parseValue_tokensOf {α : Type} (V : JsonValue α) (R : List (Option (Token α)))
    (h : wfKeys V = true) :
    parseValue (padv (List.map some (tokensOf V) ++ R)).1
        (padv (List.map some (tokensOf V) ++ R)).2 = (some V, padv R) := by
  cases V with
  | object ms =>
    cases ms with
    | nil =>
      show parseValue (some Token.leftBrace)
          (List.map some (tokensOfEntries ([] : List (String × JsonValue α)) ++
            [Token.rightBrace]) ++ R)
        = (some (JsonValue.object []), padv R)
      rw [parseValue_leftBrace]
      rw [parseObject_empty
        (show padv (List.map some (tokensOfEntries ([] : List (String × JsonValue α)) ++
              [Token.rightBrace]) ++ R)
            = (some Token.rightBrace, R) from rfl)]
    | cons e r =>
      obtain ⟨k, v⟩ := e
      have hw : keysDistinctB ((k, v) :: r) = true ∧ wfEntries ((k, v) :: r) = true := by
        simpa [wfKeys, Bool.and_eq_true] using h
      show parseValue (some Token.leftBrace)
          (List.map some (tokensOfEntries ((k, v) :: r) ++ [Token.rightBrace]) ++ R)
        = (some (JsonValue.object ((k, v) :: r)), padv R)
      rw [parseValue_leftBrace]
      rw [parseObject_loop
        (show padv (List.map some (tokensOfEntries ((k, v) :: r) ++ [Token.rightBrace]) ++ R)
            = (some (Token.string k),
               List.map some ((Token.colon ::
                 (tokensOf v ++ commaSep r ++ tokensOfEntries r)) ++ [Token.rightBrace]) ++ R)
          from rfl)
        (fun hc => Token.noConfusion (Option.some.inj hc))]
      exact parseObjLoop_tokensOf ((k, v) :: r) [] R (by simp) hw.2
        (keysDistinctB_nodup _ hw.1)
  | array vs =>
    cases vs with
    | nil =>
      show parseValue (some Token.leftBracket)
          (List.map some (tokensOfElems ([] : List (JsonValue α)) ++
            [Token.rightBracket]) ++ R)
        = (some (JsonValue.array []), padv R)
      rw [parseValue_leftBracket]
      rw [parseArray_empty
        (show padv (List.map some (tokensOfElems ([] : List (JsonValue α)) ++
              [Token.rightBracket]) ++ R)
            = (some Token.rightBracket, R) from rfl)]
    | cons v r =>
      have hx : wfElems (v :: r) = true := h
      show parseValue (some Token.leftBracket)
          (List.map some (tokensOfElems (v :: r) ++ [Token.rightBracket]) ++ R)
        = (some (JsonValue.array (v :: r)), padv R)
      rw [parseValue_leftBracket]
      simp only [tokensOfElems, List.map_append, List.map_cons, List.map_nil, List.cons_append,
        List.nil_append, List.append_assoc]
      rw [parseArray_loop
        (show padv (List.map some (tokensOf v) ++ (List.map some (commaSep r) ++
              (List.map some (tokensOfElems r) ++ some Token.rightBracket :: R)))
            = ((padv (List.map some (tokensOf v) ++ (List.map some (commaSep r) ++
                 (List.map some (tokensOfElems r) ++ some Token.rightBracket :: R)))).1,
               (padv (List.map some (tokensOf v) ++ (List.map some (commaSep r) ++
                 (List.map some (tokensOfElems r) ++ some Token.rightBracket :: R)))).2)
          from rfl)
        (tokensOf_head_not_rbracket v _)]
      have hrec := parseArrLoop_tokensOf (v :: r) [] R (by simp) hx
      simp only [tokensOfElems, List.map_append, List.map_cons, List.map_nil, List.cons_append,
        List.nil_append, List.append_assoc] at hrec
      exact hrec
  | string s => exact parseValue_string s R
  | number n => exact parseValue_number n R
  | true => exact parseValue_true R
  | false => exact parseValue_false R
  | null => exact parseValue_null R

/-- Running the object key-value loop on the canonical tokens of a
non-empty entry list `ms` (closed by `}` and followed by `R`), starting
from an accumulated map `acc` whose keys are disjoint from those of `ms`,
appends the entries of `ms` to `acc`. -/
theorem parseObjLoop_tokensOf {α : Type} (ms : List (String × JsonValue α))
    (acc : List (String × JsonValue α)) (R : List (Option (Token α)))
    (hms : ms ≠ []) (hwf : wfEntries ms = true)
    (hnd : (keysOf acc ++ keysOf ms).Nodup) :
    parseObjLoop acc (padv (List.map some (tokensOfEntries ms ++ [Token.rightBrace]) ++ R)).1
        (padv (List.map some (tokensOfEntries ms ++ [Token.rightBrace]) ++ R)).2
      = (some (JsonValue.object (acc ++ ms)), padv R) := by
  cases ms with
  | nil => exact absurd rfl hms
  | cons e r =>
    obtain ⟨k, v⟩ := e
    have hv : wfKeys v = true ∧ wfEntries r = true := by
      simpa [wfEntries, Bool.and_eq_true] using hwf
    have hkmem : k ∉ keysOf acc := by
      intro hk
      exact (List.disjoint_of_nodup_append hnd) hk (by simp [keysOf])
    simp only [tokensOfEntries, List.map_append, List.map_cons, List.map_nil, List.cons_append,
      List.nil_append, List.append_assoc]
    show parseObjLoop acc (some (Token.string k))
        (some Token.colon :: (List.map some (tokensOf v) ++ (List.map some (commaSep r) ++
          (List.map some (tokensOfEntries r) ++ some Token.rightBrace :: R))))
      = (some (JsonValue.object (acc ++ (k, v) :: r)), padv R)
    cases r with
    | nil =>
      simp only [commaSep, tokensOfEntries, List.map_nil, List.nil_append]
      rw [parseObjLoop_rightBrace acc k
        (show padv (some Token.colon :: (List.map some (tokensOf v) ++
              some Token.rightBrace :: R))
            = (some Token.colon, List.map some (tokensOf v) ++ some Token.rightBrace :: R)
          from rfl)
        rfl
        (parseValue_tokensOf v (some Token.rightBrace :: R) hv.1)]
      simp [accInsert, insertIdx_append acc k v hkmem, padv]
    | cons e2 r2 =>
      simp only [commaSep, List.map_cons, List.map_nil, List.cons_append, List.nil_append]
      rw [parseObjLoop_comma acc k
        (show padv (some Token.colon :: (List.map some (tokensOf v) ++ some Token.comma ::
              (List.map some (tokensOfEntries (e2 :: r2)) ++ some Token.rightBrace :: R)))
            = (some Token.colon, List.map some (tokensOf v) ++ some Token.comma ::
                (List.map some (tokensOfEntries (e2 :: r2)) ++ some Token.rightBrace :: R))
          from rfl)
        rfl
        (parseValue_tokensOf v (some Token.comma ::
          (List.map some (tokensOfEntries (e2 :: r2)) ++ some Token.rightBrace :: R)) hv.1)]
      simp only [accInsert]
      rw [insertIdx_append acc k v hkmem]
      have hnd2 : (keysOf (acc ++ [(k, v)]) ++ keysOf (e2 :: r2)).Nodup := by
        simpa [keysOf, List.map_append, List.map_cons, List.map_nil, List.append_assoc,
          List.cons_append, List.nil_append] using hnd
      have hrec := parseObjLoop_tokensOf (e2 :: r2) (acc ++ [(k, v)]) R (by simp) hv.2 hnd2
      simp only [List.map_append, List.map_cons, List.map_nil, List.cons_append,
        List.nil_append, List.append_assoc] at hrec
      exact hrec

/-- Running the array element loop on the canonical tokens of a non-empty
element list `vs` (closed by `]` and followed by `R`) appends the elements
of `vs` to the accumulated vector `acc`. -/
theorem parseArrLoop_tokensOf {α : Type} (vs : List (JsonValue α))
    (acc : List (JsonValue α)) (R : List (Option (Token α)))
    (hvs : vs ≠ []) (hwf : wfElems vs = true) :
    parseArrLoop acc (padv (List.map some (tokensOfElems vs ++ [Token.rightBracket]) ++ R)).1
        (padv (List.map some (tokensOfElems vs ++ [Token.rightBracket]) ++ R)).2
      = (some (JsonValue.array (acc ++ vs)), padv R) := by
  cases vs with
  | nil => exact absurd rfl hvs
  | cons v r =>
    have hv : wfKeys v = true ∧ wfElems r = true := by
      simpa [wfElems, Bool.and_eq_true] using hwf
    simp only [tokensOfElems, List.map_append, List.map_cons, List.map_nil, List.cons_append,
      List.nil_append, List.append_assoc]
    show parseArrLoop acc
        (padv (List.map some (tokensOf v) ++ (List.map some (commaSep r) ++
          (List.map some (tokensOfElems r) ++ some Token.rightBracket :: R)))).1
        (padv (List.map some (tokensOf v) ++ (List.map some (commaSep r) ++
          (List.map some (tokensOfElems r) ++ some Token.rightBracket :: R)))).2
      = (some (JsonValue.array (acc ++ v :: r)), padv R)
    cases r with
    | nil =>
      simp only [commaSep, tokensOfElems, List.map_nil, List.nil_append]
      rw [parseArrLoop_rightBracket acc
        (parseValue_tokensOf v (some Token.rightBracket :: R) hv.1)]
      simp [accPush]
    | cons v2 r2 =>
      simp only [commaSep, List.map_cons, List.map_nil, List.cons_append, List.nil_append]
      rw [parseArrLoop_comma acc
        (parseValue_tokensOf v (some Token.comma ::
          (List.map some (tokensOfElems (v2 :: r2)) ++ some Token.rightBracket :: R)) hv.1)]
      simp only [accPush]
      have hrec := parseArrLoop_tokensOf (v2 :: r2) (acc ++ [v]) R (by simp) hv.2
      simp only [List.map_append, List.map_cons, List.map_nil, List.cons_append,
        List.nil_append, List.append_assoc] at hrec
      exact hrec

end


/-!  Lexing the printer's output.  The printer emits strings verbatim
(no escaping) and numbers through `f64::to_string`, so the round trip
holds on values whose strings avoid the two characters the lexer treats
specially and whose numbers print as a single numeric lexeme that parses
back to the same float. -/

/-- A printable string: none of its characters is a quote or a
backslash, so `read_string` returns it verbatim. -/
def StrOk (s : String) : Prop := ∀ c ∈ s.data, ¬c = '"' ∧ ¬c = '\\'

/-- A printable number: `to_string` yields a nonempty lexeme that starts
with a digit, `-` or `+`, consists of `read_number` characters only, and
parses back to the same value (IEEE round trip). -/
def NumOk {α : Type} (M : LexModel α) (n : α) : Prop :=
  (∃ c cs, M.f64ToStr n = c :: cs ∧ (c.isDigit || c = '-' || c = '+') = true) ∧
  (∀ c ∈ M.f64ToStr n, isNumChar c = true) ∧
  M.parseF64 (M.f64ToStr n) = some n

/-- The finitely many facts about `char::is_alphabetic` the round trip
uses: the letters of `true`, `false` and `null` are alphabetic, and the
two characters that can follow a literal in printed output are not. -/
def GoodAlpha {α : Type} (M : LexModel α) : Prop :=
  M.isAlphabetic 't' = true ∧ M.isAlphabetic 'r' = true ∧ M.isAlphabetic 'u' = true ∧
  M.isAlphabetic 'e' = true ∧ M.isAlphabetic 'f' = true ∧ M.isAlphabetic 'a' = true ∧
  M.isAlphabetic 'l' = true ∧ M.isAlphabetic 's' = true ∧ M.isAlphabetic 'n' = true ∧
  M.isAlphabetic ',' = false ∧ M.isAlphabetic '\n' = false

/-- In printed output, the text following a value is empty or starts with
a comma or a newline. -/
def HeadSep : List Char → Prop
  | [] => True
  | c :: _ => c = ',' ∨ c = '\n'

mutual

/-- The printable values: every string leaf and key is `StrOk`, every
number leaf is `NumOk`. -/
def PrintOk {α : Type} (M : LexModel α) : JsonValue α → Prop
  | JsonValue.object ms => PrintOkEntries M ms
  | JsonValue.array vs => PrintOkElems M vs
  | JsonValue.string s => StrOk s
  | JsonValue.number n => NumOk M n
  | _ => True

def PrintOkEntries {α : Type} (M : LexModel α) : List (String × JsonValue α) → Prop
  | [] => True
  | (k, v) :: r => StrOk k ∧ PrintOk M v ∧ PrintOkEntries M r

def PrintOkElems {α : Type} (M : LexModel α) : List (JsonValue α) → Prop
  | [] => True
  | v :: r => PrintOk M v ∧ PrintOkElems M r

end

/-- A run of `next_token()` calls from text `s` that returns exactly the
pulls `ts` and leaves the remaining text `s2`. -/
def LexChain {α : Type} (M : LexModel α) : List Char → List (Option (Token α)) → List Char → Prop
  | s, [], s2 => s = s2
  | s, t :: ts, s2 => (nextToken M s).1 = t ∧ LexChain M (nextToken M s).2 ts s2

theorem lexChain_single {α : Type} (M : LexModel α) {s s1 : List Char} {t : Option (Token α)}
    (h : nextToken M s = (t, s1)) : LexChain M s [t] s1 := by
  refine ⟨?_, ?_⟩
  · rw [h]
  · show (nextToken M s).2 = s1
    rw [h]

theorem lexChain_append {α : Type} (M : LexModel α) :
    ∀ (ts1 : List (Option (Token α))) (s s1 s2 : List Char) (ts2 : List (Option (Token α))),
      LexChain M s ts1 s1 → LexChain M s1 ts2 s2 → LexChain M s (ts1 ++ ts2) s2 := by
  intro ts1
  induction ts1 with
  | nil =>
    intro s s1 s2 ts2 h1 h2
    have hs : s = s1 := h1
    rw [List.nil_append, hs]
    exact h2
  | cons t ts ih =>
    intro s s1 s2 ts2 h1 h2
    obtain ⟨ha, hb⟩ := h1
    exact ⟨ha, ih _ _ _ _ hb h2⟩

/-- A chain of pulls that are all tokens and end with exhausted text is
exactly the input's `tokenList`. -/
theorem tokenList_of_lexChain {α : Type} (M : LexModel α) :
    ∀ (ts : List (Option (Token α))) (s : List Char),
      (∀ t ∈ ts, t ≠ none) → LexChain M s ts [] → tokenList M s = ts := by
  intro ts
  induction ts with
  | nil =>
    intro s _ h
    have hs : s = [] := h
    rw [hs, tokenList_nil]
  | cons t ts ih =>
    intro s hne h
    obtain ⟨ha, hb⟩ := h
    have hs : s ≠ [] := by
      intro hnil
      subst hnil
      rw [nextToken_nil] at ha
      exact hne t (by simp) ha.symm
    rw [tokenList_cons M s hs, ha, ih _ (fun x hx => hne x (by simp [hx])) hb]

theorem dropWhile_ws_append (ws s : List Char) (h : ws.all rustIsWhitespace = true) :
    (ws ++ s).dropWhile rustIsWhitespace = s.dropWhile rustIsWhitespace := by
  induction ws with
  | nil => rw [List.nil_append]
  | cons c t ih =>
    simp only [List.all_cons, Bool.and_eq_true] at h
    rw [List.cons_append, List.dropWhile_cons, if_pos h.1, ih h.2]

/-- Leading whitespace does not change the result of `next_token()`. -/
theorem nextToken_wsDrop {α : Type} (M : LexModel α) (ws s : List Char)
    (h : ws.all rustIsWhitespace = true) : nextToken M (ws ++ s) = nextToken M s := by
  simp only [nextToken, dropWhile_ws_append ws s h]

theorem lexChain_ws {α : Type} (M : LexModel α) {s s2 : List Char}
    {ts : List (Option (Token α))} (ws : List Char) (hws : ws.all rustIsWhitespace = true)
    (hne : ts ≠ []) (h : LexChain M s ts s2) : LexChain M (ws ++ s) ts s2 := by
  cases ts with
  | nil => exact absurd rfl hne
  | cons t ts =>
    obtain ⟨ha, hb⟩ := h
    refine ⟨?_, ?_⟩
    · rw [nextToken_wsDrop M ws s hws]
      exact ha
    · rw [nextToken_wsDrop M ws s hws]
      exact hb

theorem pad_ws (n : Nat) : (pad n).all rustIsWhitespace = true := by
  rw [List.all_eq_true]
  intro c hc
  rw [pad, List.mem_replicate] at hc
  rw [hc.2]
  rfl

theorem takeWhile_append_all {β : Type} (p : β → Bool) (l1 l2 : List β)
    (h1 : ∀ c ∈ l1, p c = true) (h2 : ∀ c t, l2 = c :: t → p c = false) :
    (l1 ++ l2).takeWhile p = l1 := by
  induction l1 with
  | nil =>
    cases l2 with
    | nil => rfl
    | cons c t => simp [List.takeWhile_cons, h2 c t rfl]
  | cons c t ih =>
    have hc : p c = true := h1 c (by simp)
    rw [List.cons_append, List.takeWhile_cons, if_pos hc]
    rw [ih (fun x hx => h1 x (by simp [hx]))]

theorem dropWhile_append_all {β : Type} (p : β → Bool) (l1 l2 : List β)
    (h1 : ∀ c ∈ l1, p c = true) (h2 : ∀ c t, l2 = c :: t → p c = false) :
    (l1 ++ l2).dropWhile p = l2 := by
  induction l1 with
  | nil =>
    cases l2 with
    | nil => rfl
    | cons c t => simp [List.dropWhile_cons, h2 c t rfl]
  | cons c t ih =>
    have hc : p c = true := h1 c (by simp)
    rw [List.cons_append, List.dropWhile_cons, if_pos hc]
    rw [ih (fun x hx => h1 x (by simp [hx]))]

/-- `read_string` copies a quote- and backslash-free text verbatim up to
the closing quote. -/
theorem readStringAux_clean :
    ∀ (cs acc rest : List Char), (∀ c ∈ cs, ¬c = '"' ∧ ¬c = '\\') →
      readStringAux (cs ++ '"' :: rest) acc = (acc ++ cs, rest) := by
  intro cs
  induction cs with
  | nil =>
    intro acc rest _
    simp [readStringAux]
  | cons c t ih =>
    intro acc rest h
    have hc := h c (by simp)
    have hstep : readStringAux (c :: (t ++ '"' :: rest)) acc
        = readStringAux (t ++ '"' :: rest) (acc ++ [c]) := by
      rw [readStringAux.eq_def]
      split
      · rename_i heq
        cases heq
      · rename_i r heq
        injection heq with he1 he2
        exact absurd he1 hc.1
      · rename_i r heq
        injection heq with he1 he2
        exact absurd he1 hc.2
      · rename_i c2 r2 hx1 hx2 heq
        injection heq with he1 he2
        rw [he1, he2]
    rw [List.cons_append, hstep, ih (acc ++ [c]) rest (fun x hx => h x (by simp [hx]))]
    simp


theorem headSep_notNum (rest : List Char) (hr : HeadSep rest) :
    ∀ c t, rest = c :: t → isNumChar c = false := by
  intro c t hct
  subst hct
  have hr2 : c = ',' ∨ c = '\n' := hr
  rcases hr2 with h | h <;> rw [h] <;> rfl

theorem headSep_notAlpha {α : Type} (M : LexModel α) (hA : GoodAlpha M) (rest : List Char)
    (hr : HeadSep rest) : ∀ c t, rest = c :: t → M.isAlphabetic c = false := by
  intro c t hct
  subst hct
  have hr2 : c = ',' ∨ c = '\n' := hr
  rcases hr2 with h | h <;> rw [h]
  · exact hA.2.2.2.2.2.2.2.2.2.1
  · exact hA.2.2.2.2.2.2.2.2.2.2

/-- The dispatch facts about a character that can start a number lexeme. -/
theorem numStart_facts (c : Char) (h : (c.isDigit || c = '-' || c = '+') = true) :
    rustIsWhitespace c = false ∧ ¬c = '\x7b' ∧ ¬c = '\x7d' ∧ ¬c = '[' ∧ ¬c = ']' ∧
      ¬c = ':' ∧ ¬c = ',' ∧ ¬c = '"' := by
  simp only [Bool.or_eq_true, decide_eq_true_eq] at h
  rcases h with (hd | hc) | hc
  · simp only [Char.isDigit, decide_eq_true_eq, Bool.and_eq_true] at hd
    have h1 : 48 ≤ c.toNat := hd.1
    have h2 : c.toNat ≤ 57 := hd.2
    refine ⟨?_, ?_, ?_, ?_, ?_, ?_, ?_, ?_⟩
    · simp [rustIsWhitespace]
      omega
    all_goals
      intro he
      subst he
      exact absurd hd (by decide)
  · subst hc
    refine ⟨rfl, ?_, ?_, ?_, ?_, ?_, ?_, ?_⟩ <;> decide
  · subst hc
    refine ⟨rfl, ?_, ?_, ?_, ?_, ?_, ?_, ?_⟩ <;> decide

/-!  One `next_token()` step per lexeme kind of printed output. -/

theorem nextToken_lbrace {α : Type} (M : LexModel α) (s : List Char) :
    nextToken M ('\x7b' :: s) = (some Token.leftBrace, s) := rfl

theorem nextToken_rbrace {α : Type} (M : LexModel α) (s : List Char) :
    nextToken M ('\x7d' :: s) = (some Token.rightBrace, s) := rfl

theorem nextToken_lbracket {α : Type} (M : LexModel α) (s : List Char) :
    nextToken M ('[' :: s) = (some Token.leftBracket, s) := rfl

theorem nextToken_rbracket {α : Type} (M : LexModel α) (s : List Char) :
    nextToken M (']' :: s) = (some Token.rightBracket, s) := rfl

theorem nextToken_colon {α : Type} (M : LexModel α) (s : List Char) :
    nextToken M (':' :: s) = (some Token.colon, s) := rfl

theorem nextToken_comma {α : Type} (M : LexModel α) (s : List Char) :
    nextToken M (',' :: s) = (some Token.comma, s) := rfl

theorem nextToken_strLit {α : Type} (M : LexModel α) (s : String) (rest : List Char)
    (hs : StrOk s) :
    nextToken M ('"' :: (s.data ++ '"' :: rest)) = (some (Token.string s), rest) := by
  have h := readStringAux_clean s.data [] rest hs
  show (some (Token.string (String.mk (readStringAux (s.data ++ '"' :: rest) []).1)),
        (readStringAux (s.data ++ '"' :: rest) []).2) = (some (Token.string s), rest)
  rw [h]
  rfl

theorem nextToken_alphaStep {α : Type} (M : LexModel α) (c : Char) (rest : List Char)
    (hw : rustIsWhitespace c = false) (h1 : ¬c = '\x7b') (h2 : ¬c = '\x7d') (h3 : ¬c = '[')
    (h4 : ¬c = ']') (h5 : ¬c = ':') (h6 : ¬c = ',') (h7 : ¬c = '"')
    (h8 : (c.isDigit || c = '-' || c = '+') = false) (h9 : M.isAlphabetic c = true) :
    nextToken M (c :: rest)
      = (keywordToken α (String.mk ((c :: rest).takeWhile M.isAlphabetic)),
         (c :: rest).dropWhile M.isAlphabetic) := by
  simp [nextToken, List.dropWhile_cons, hw, h1, h2, h3, h4, h5, h6, h7, h8, h9]

theorem nextToken_kwTrue {α : Type} (M : LexModel α) (rest : List Char) (hA : GoodAlpha M)
    (hr : HeadSep rest) :
    nextToken M ('t' :: 'r' :: 'u' :: 'e' :: rest) = (some Token.true, rest) := by
  have hmem : ∀ c ∈ ['t', 'r', 'u', 'e'], M.isAlphabetic c = true := by
    intro c hc
    simp only [List.mem_cons, List.not_mem_nil, or_false] at hc
    rcases hc with h | h | h | h
    all_goals subst h
    exacts [hA.1, hA.2.1, hA.2.2.1, hA.2.2.2.1]
  have ht := takeWhile_append_all M.isAlphabetic ['t', 'r', 'u', 'e'] rest hmem
    (headSep_notAlpha M hA rest hr)
  have hd := dropWhile_append_all M.isAlphabetic ['t', 'r', 'u', 'e'] rest hmem
    (headSep_notAlpha M hA rest hr)
  simp only [List.cons_append, List.nil_append] at ht hd
  rw [nextToken_alphaStep M 't' ('r' :: 'u' :: 'e' :: rest) rfl (by decide) (by decide)
    (by decide) (by decide) (by decide) (by decide) (by decide) rfl hA.1]
  rw [ht, hd]
  rfl

theorem nextToken_kwFalse {α : Type} (M : LexModel α) (rest : List Char) (hA : GoodAlpha M)
    (hr : HeadSep rest) :
    nextToken M ('f' :: 'a' :: 'l' :: 's' :: 'e' :: rest) = (some Token.false, rest) := by
  have hmem : ∀ c ∈ ['f', 'a', 'l', 's', 'e'], M.isAlphabetic c = true := by
    intro c hc
    simp only [List.mem_cons, List.not_mem_nil, or_false] at hc
    rcases hc with h | h | h | h | h
    all_goals subst h
    exacts [hA.2.2.2.2.1, hA.2.2.2.2.2.1, hA.2.2.2.2.2.2.1, hA.2.2.2.2.2.2.2.1, hA.2.2.2.1]
  have ht := takeWhile_append_all M.isAlphabetic ['f', 'a', 'l', 's', 'e'] rest hmem
    (headSep_notAlpha M hA rest hr)
  have hd := dropWhile_append_all M.isAlphabetic ['f', 'a', 'l', 's', 'e'] rest hmem
    (headSep_notAlpha M hA rest hr)
  simp only [List.cons_append, List.nil_append] at ht hd
  rw [nextToken_alphaStep M 'f' ('a' :: 'l' :: 's' :: 'e' :: rest) rfl (by decide) (by decide)
    (by decide) (by decide) (by decide) (by decide) (by decide) rfl hA.2.2.2.2.1]
  rw [ht, hd]
  rfl

theorem nextToken_kwNull {α : Type} (M : LexModel α) (rest : List Char) (hA : GoodAlpha M)
    (hr : HeadSep rest) :
    nextToken M ('n' :: 'u' :: 'l' :: 'l' :: rest) = (some Token.null, rest) := by
  have hmem : ∀ c ∈ ['n', 'u', 'l', 'l'], M.isAlphabetic c = true := by
    intro c hc
    simp only [List.mem_cons, List.not_mem_nil, or_false] at hc
    rcases hc with h | h | h | h
    all_goals subst h
    exacts [hA.2.2.2.2.2.2.2.2.1, hA.2.2.1, hA.2.2.2.2.2.2.1, hA.2.2.2.2.2.2.1]
  have ht := takeWhile_append_all M.isAlphabetic ['n', 'u', 'l', 'l'] rest hmem
    (headSep_notAlpha M hA rest hr)
  have hd := dropWhile_append_all M.isAlphabetic ['n', 'u', 'l', 'l'] rest hmem
    (headSep_notAlpha M hA rest hr)
  simp only [List.cons_append, List.nil_append] at ht hd
  rw [nextToken_alphaStep M 'n' ('u' :: 'l' :: 'l' :: rest) rfl (by decide) (by decide)
    (by decide) (by decide) (by decide) (by decide) (by decide) rfl hA.2.2.2.2.2.2.2.2.1]
  rw [ht, hd]
  rfl

theorem nextToken_numLit {α : Type} (M : LexModel α) (n : α) (rest : List Char)
    (hn : NumOk M n) (hr : HeadSep rest) :
    nextToken M (M.f64ToStr n ++ rest) = (some (Token.number n), rest) := by
  obtain ⟨⟨c, cs, hstr, hstart⟩, hall, hparse⟩ := hn
  rw [hstr] at hall hparse ⊢
  obtain ⟨hw, h1, h2, h3, h4, h5, h6, h7⟩ := numStart_facts c hstart
  have ht := takeWhile_append_all isNumChar (c :: cs) rest hall (headSep_notNum rest hr)
  have hd := dropWhile_append_all isNumChar (c :: cs) rest hall (headSep_notNum rest hr)
  simp only [List.cons_append] at ht hd
  simp [nextToken, List.cons_append, List.dropWhile_cons, hw, h1, h2, h3, h4, h5, h6, h7,
    hstart, ht, hd, hparse]


theorem headSep_fmtSep {β : Type} (r : List β) (Y : List Char) : HeadSep (fmtSep r ++ Y) := by
  cases r with
  | nil => exact Or.inr rfl
  | cons b t => exact Or.inl rfl

mutual

/-- Lexing the printed form of a printable value `V` (at any indent,
followed by any text `rest` that is empty or starts with a separator)
pulls exactly the canonical tokens of `V` and stops at `rest`. -/
theorem lexFmt {α : Type} (M : LexModel α) (hA : GoodAlpha M) (V : JsonValue α) (i : Nat)
    (rest : List Char) (hp : PrintOk M V) (hr : HeadSep rest) :
    LexChain M (fmt M V i ++ rest) (List.map some (tokensOf V)) rest := by
  cases V with
  | object ms =>
    have hpe : PrintOkEntries M ms := hp
    simp only [fmt, tokensOf, List.cons_append, List.append_assoc, List.map_cons,
      List.map_append, List.map_nil, List.nil_append]
    refine ⟨?_, ?_⟩
    · rw [nextToken_lbrace]
    · rw [nextToken_lbrace]
      cases ms with
      | nil =>
        exact lexChain_ws M ('\n' :: pad i) (by rw [List.all_cons, pad_ws]; rfl) (by simp)
          (lexChain_single M (nextToken_rbrace M rest))
      | cons e r =>
        exact lexChain_ws M ['\n'] rfl (by simp)
          (lexFmtEntries M hA (e :: r) i rest hpe (by simp))
  | array vs =>
    have hpe : PrintOkElems M vs := hp
    simp only [fmt, tokensOf, List.cons_append, List.append_assoc, List.map_cons,
      List.map_append, List.map_nil, List.nil_append]
    refine ⟨?_, ?_⟩
    · rw [nextToken_lbracket]
    · rw [nextToken_lbracket]
      cases vs with
      | nil =>
        exact lexChain_ws M ('\n' :: pad i) (by rw [List.all_cons, pad_ws]; rfl) (by simp)
          (lexChain_single M (nextToken_rbracket M rest))
      | cons v r =>
        exact lexChain_ws M ['\n'] rfl (by simp)
          (lexFmtElems M hA (v :: r) i rest hpe (by simp))
  | string s =>
    have hp2 : StrOk s := hp
    simp only [fmt, tokensOf, List.map_cons, List.map_nil, List.cons_append,
      List.append_assoc, List.nil_append]
    exact lexChain_single M (nextToken_strLit M s rest hp2)
  | number n =>
    have hp2 : NumOk M n := hp
    simp only [fmt, tokensOf, List.map_cons, List.map_nil]
    exact lexChain_single M (nextToken_numLit M n rest hp2 hr)
  | true =>
    show LexChain M ('t' :: 'r' :: 'u' :: 'e' :: rest) [some (Token.true : Token α)] rest
    exact lexChain_single M (nextToken_kwTrue M rest hA hr)
  | false =>
    show LexChain M ('f' :: 'a' :: 'l' :: 's' :: 'e' :: rest)
      [some (Token.false : Token α)] rest
    exact lexChain_single M (nextToken_kwFalse M rest hA hr)
  | null =>
    show LexChain M ('n' :: 'u' :: 'l' :: 'l' :: rest) [some (Token.null : Token α)] rest
    exact lexChain_single M (nextToken_kwNull M rest hA hr)

/-- Lexing the printed entries of a non-empty object body, followed by
the closing-brace line, pulls the entries' tokens and the `}` and stops
at `rest`. -/
theorem lexFmtEntries {α : Type} (M : LexModel α) (hA : GoodAlpha M)
    (ms : List (String × JsonValue α)) (i : Nat) (rest : List Char)
    (hp : PrintOkEntries M ms) (hms : ms ≠ []) :
    LexChain M (fmtEntries M ms i ++ (pad i ++ '\x7d' :: rest))
      (List.map some (tokensOfEntries ms) ++ [some Token.rightBrace]) rest := by
  cases ms with
  | nil => exact absurd rfl hms
  | cons e r =>
    obtain ⟨k, v⟩ := e
    have hp2 : StrOk k ∧ PrintOk M v ∧ PrintOkEntries M r := hp
    simp only [fmtEntries, tokensOfEntries, List.map_cons, List.map_append, List.map_nil,
      List.cons_append, List.nil_append, List.append_assoc]
    apply lexChain_ws M (pad (i + 2)) (pad_ws (i + 2)) (by simp)
    have hsep : HeadSep (fmtSep r ++ (fmtEntries M r i ++ (pad i ++ '\x7d' :: rest))) :=
      headSep_fmtSep r _
    have hval := lexFmt M hA v (i + 2)
      (fmtSep r ++ (fmtEntries M r i ++ (pad i ++ '\x7d' :: rest))) hp2.2.1 hsep
    have htail : LexChain M (fmtSep r ++ (fmtEntries M r i ++ (pad i ++ '\x7d' :: rest)))
        (List.map some (commaSep r) ++
          (List.map some (tokensOfEntries r) ++ [some Token.rightBrace])) rest := by
      cases r with
      | nil =>
        exact lexChain_ws M ('\n' :: pad i) (by rw [List.all_cons, pad_ws]; rfl) (by simp)
          (lexChain_single M (nextToken_rbrace M rest))
      | cons e2 r2 =>
        show LexChain M (',' :: '\n' :: (fmtEntries M (e2 :: r2) i ++ (pad i ++ '\x7d' :: rest)))
          (some Token.comma ::
            (List.map some (tokensOfEntries (e2 :: r2)) ++ [some Token.rightBrace])) rest
        refine ⟨?_, ?_⟩
        · rw [nextToken_comma]
        · rw [nextToken_comma]
          exact lexChain_ws M ['\n'] rfl (by simp)
            (lexFmtEntries M hA (e2 :: r2) i rest hp2.2.2 (by simp))
    refine ⟨?_, ?_⟩
    · rw [nextToken_strLit M k
        (':' :: ' ' :: (fmt M v (i + 2) ++
          (fmtSep r ++ (fmtEntries M r i ++ (pad i ++ '\x7d' :: rest))))) hp2.1]
    · rw [nextToken_strLit M k
        (':' :: ' ' :: (fmt M v (i + 2) ++
          (fmtSep r ++ (fmtEntries M r i ++ (pad i ++ '\x7d' :: rest))))) hp2.1]
      refine ⟨?_, ?_⟩
      · rw [nextToken_colon]
      · rw [nextToken_colon]
        exact lexChain_ws M [' '] rfl (by simp)
          (lexChain_append M (List.map some (tokensOf v)) _ _ _ _ hval htail)

/-- Lexing the printed elements of a non-empty array body, followed by
the closing-bracket line, pulls the elements' tokens and the `]` and
stops at `rest`. -/
theorem lexFmtElems {α : Type} (M : LexModel α) (hA : GoodAlpha M)
    (vs : List (JsonValue α)) (i : Nat) (rest : List Char)
    (hp : PrintOkElems M vs) (hvs : vs ≠ []) :
    LexChain M (fmtElems M vs i ++ (pad i ++ ']' :: rest))
      (List.map some (tokensOfElems vs) ++ [some Token.rightBracket]) rest := by
  cases vs with
  | nil => exact absurd rfl hvs
  | cons v r =>
    have hp2 : PrintOk M v ∧ PrintOkElems M r := hp
    simp only [fmtElems, tokensOfElems, List.map_cons, List.map_append, List.map_nil,
      List.cons_append, List.nil_append, List.append_assoc]
    apply lexChain_ws M (pad (i + 2)) (pad_ws (i + 2)) (by simp)
    have hsep : HeadSep (fmtSep r ++ (fmtElems M r i ++ (pad i ++ ']' :: rest))) :=
      headSep_fmtSep r _
    have hval := lexFmt M hA v (i + 2)
      (fmtSep r ++ (fmtElems M r i ++ (pad i ++ ']' :: rest))) hp2.1 hsep
    have htail : LexChain M (fmtSep r ++ (fmtElems M r i ++ (pad i ++ ']' :: rest)))
        (List.map some (commaSep r) ++
          (List.map some (tokensOfElems r) ++ [some Token.rightBracket])) rest := by
      cases r with
      | nil =>
        exact lexChain_ws M ('\n' :: pad i) (by rw [List.all_cons, pad_ws]; rfl) (by simp)
          (lexChain_single M (nextToken_rbracket M rest))
      | cons v2 r2 =>
        show LexChain M (',' :: '\n' :: (fmtElems M (v2 :: r2) i ++ (pad i ++ ']' :: rest)))
          (some Token.comma ::
            (List.map some (tokensOfElems (v2 :: r2)) ++ [some Token.rightBracket])) rest
        refine ⟨?_, ?_⟩
        · rw [nextToken_comma]
        · rw [nextToken_comma]
          exact lexChain_ws M ['\n'] rfl (by simp)
            (lexFmtElems M hA (v2 :: r2) i rest hp2.2 (by simp))
    exact lexChain_append M (List.map some (tokensOf v)) _ _ _ _ hval htail

end


/-- Token-level round trip: the canonical token stream of a well-formed
value parses to that value, whatever pulls follow. -/
theorem parseToks_tokensOf {α : Type} (V : JsonValue α) (R : List (Option (Token α)))
    (h : wfKeys V = true) :
    parseToks (List.map some (tokensOf V) ++ R) = some V := by
  unfold parseToks
  rw [parseValue_tokensOf V R h]

/-- The lexer turns the printed form of a printable value into exactly
its canonical token stream. -/
theorem tokenList_fmt {α : Type} (M : LexModel α) (hA : GoodAlpha M) (V : JsonValue α)
    (hp : PrintOk M V) : tokenList M (fmt M V 0) = List.map some (tokensOf V) := by
  have hc := lexFmt M hA V 0 [] hp True.intro
  rw [List.append_nil] at hc
  exact tokenList_of_lexChain M _ _ (by simp) hc

/-- Character-level round trip: printing a printable, well-formed value
at indent 0 and parsing the output returns the value. -/
theorem parse_fmt {α : Type} (M : LexModel α) (hA : GoodAlpha M) (V : JsonValue α)
    (hwf : wfKeys V = true) (hp : PrintOk M V) : parse M (fmt M V 0) = some V := by
  unfold parse
  rw [tokenList_fmt M hA V hp]
  unfold parseToks
  have h := parseValue_tokensOf V [] hwf
  rw [List.append_nil] at h
  rw [h]

/-- An object body followed by a trailing comma before the `}`: after the
last entry the loop advances past the comma, finds `}` where a key is
required, and fails. -/
theorem parseObjLoop_trailComma {α : Type} :
    ∀ ms : List (String × JsonValue α), ms ≠ [] → wfEntries ms = true →
      ∀ (acc : List (String × JsonValue α)) (R : List (Option (Token α))),
      parseObjLoop acc
          (padv (List.map some (tokensOfEntries ms ++ [Token.comma, Token.rightBrace]) ++ R)).1
          (padv (List.map some (tokensOfEntries ms ++ [Token.comma, Token.rightBrace]) ++ R)).2
        = (none, some Token.rightBrace, R) := by
  intro ms
  induction ms with
  | nil => intro h; exact absurd rfl h
  | cons e r ih =>
    intro _ hwf acc R
    obtain ⟨k, v⟩ := e
    have hv : wfKeys v = true ∧ wfEntries r = true := by
      simpa [wfEntries, Bool.and_eq_true] using hwf
    simp only [tokensOfEntries, List.map_append, List.map_cons, List.map_nil, List.cons_append,
      List.nil_append, List.append_assoc]
    show parseObjLoop acc (some (Token.string k))
        (some Token.colon :: (List.map some (tokensOf v) ++ (List.map some (commaSep r) ++
          (List.map some (tokensOfEntries r) ++
            some Token.comma :: some Token.rightBrace :: R))))
      = (none, some Token.rightBrace, R)
    cases r with
    | nil =>
      simp only [commaSep, tokensOfEntries, List.map_nil, List.nil_append]
      rw [parseObjLoop_comma acc k
        (show padv (some Token.colon :: (List.map some (tokensOf v) ++
              some Token.comma :: some Token.rightBrace :: R))
            = (some Token.colon, List.map some (tokensOf v) ++
                some Token.comma :: some Token.rightBrace :: R) from rfl)
        rfl
        (parseValue_tokensOf v (some Token.comma :: some Token.rightBrace :: R) hv.1)]
      exact parseObjLoop_noKey _ _ _ (fun k2 hk2 => Token.noConfusion (Option.some.inj hk2))
    | cons e2 r2 =>
      simp only [commaSep, List.map_cons, List.map_nil, List.cons_append, List.nil_append]
      rw [parseObjLoop_comma acc k
        (show padv (some Token.colon :: (List.map some (tokensOf v) ++ some Token.comma ::
              (List.map some (tokensOfEntries (e2 :: r2)) ++
                some Token.comma :: some Token.rightBrace :: R)))
            = (some Token.colon, List.map some (tokensOf v) ++ some Token.comma ::
                (List.map some (tokensOfEntries (e2 :: r2)) ++
                  some Token.comma :: some Token.rightBrace :: R)) from rfl)
        rfl
        (parseValue_tokensOf v (some Token.comma ::
          (List.map some (tokensOfEntries (e2 :: r2)) ++
            some Token.comma :: some Token.rightBrace :: R)) hv.1)]
      have hrec := ih (by simp) hv.2 (accInsert acc k (some v)) R
      simp only [List.map_append, List.map_cons, List.map_nil, List.cons_append,
        List.nil_append, List.append_assoc] at hrec
      exact hrec

/-- An array body followed by a trailing comma before the `]`: after the
last element the loop advances past the comma, the inner `parse_value`
fails on `]` and is skipped, and the loop closes the array as if the
comma were absent. -/
theorem parseArrLoop_trailComma {α : Type} :
    ∀ vs : List (JsonValue α), vs ≠ [] → wfElems vs = true →
      ∀ (acc : List (JsonValue α)) (R : List (Option (Token α))),
      parseArrLoop acc
          (padv (List.map some (tokensOfElems vs ++ [Token.comma, Token.rightBracket]) ++ R)).1
          (padv (List.map some (tokensOfElems vs ++ [Token.comma, Token.rightBracket]) ++ R)).2
        = (some (JsonValue.array (acc ++ vs)), padv R) := by
  intro vs
  induction vs with
  | nil => intro h; exact absurd rfl h
  | cons v r ih =>
    intro _ hwf acc R
    have hv : wfKeys v = true ∧ wfElems r = true := by
      simpa [wfElems, Bool.and_eq_true] using hwf
    simp only [tokensOfElems, List.map_append, List.map_cons, List.map_nil, List.cons_append,
      List.nil_append, List.append_assoc]
    cases r with
    | nil =>
      simp only [commaSep, tokensOfElems, List.map_nil, List.nil_append]
      rw [parseArrLoop_comma acc
        (parseValue_tokensOf v (some Token.comma :: some Token.rightBracket :: R) hv.1)]
      show parseArrLoop (accPush acc (some v)) (some Token.rightBracket) R
        = (some (JsonValue.array (acc ++ [v])), padv R)
      rw [parseArrLoop_rightBracket (accPush acc (some v)) (parseValue_rightBracket R)]
      simp [accPush]
    | cons v2 r2 =>
      simp only [commaSep, List.map_cons, List.map_nil, List.cons_append, List.nil_append]
      rw [parseArrLoop_comma acc
        (parseValue_tokensOf v (some Token.comma ::
          (List.map some (tokensOfElems (v2 :: r2)) ++
            some Token.comma :: some Token.rightBracket :: R)) hv.1)]
      simp only [accPush]
      have hrec := ih (by simp) hv.2 (acc ++ [v]) R
      simp only [List.map_append, List.map_cons, List.map_nil, List.cons_append,
        List.nil_append, List.append_assoc] at hrec
      rw [hrec]


/-!  ## Layout of the printed output (indentation law) -/

theorem intercalate_single {β : Type} (sep a : List β) : List.intercalate sep [a] = a := by
  simp [List.intercalate]

theorem intercalate_cons_cons {β : Type} (sep a b : List β) (l : List (List β)) :
    List.intercalate sep (a :: b :: l) = a ++ sep ++ List.intercalate sep (b :: l) := by
  simp [List.intercalate, List.append_assoc]

/-- The array layout: `[`, newline, each element at indent `i + 2`
preceded by `i + 2` spaces, `",\n"` between elements, a newline after
the last, and the `]` preceded by `i` spaces. -/
theorem fmtElems_layout {α : Type} (M : LexModel α) :
    ∀ (vs : List (JsonValue α)) (i : Nat), vs ≠ [] →
      fmtElems M vs i
        = List.intercalate [',', '\n'] (vs.map fun v => pad (i + 2) ++ fmt M v (i + 2))
            ++ ['\n'] := by
  intro vs
  induction vs with
  | nil => intro i h; exact absurd rfl h
  | cons v r ih =>
    intro i _
    cases r with
    | nil =>
      simp [fmtElems, fmtSep, intercalate_single]
    | cons v2 r2 =>
      simp only [List.map_cons]
      rw [intercalate_cons_cons]
      rw [show fmtElems M (v :: v2 :: r2) i
          = pad (i + 2) ++ fmt M v (i + 2) ++ fmtSep (v2 :: r2) ++ fmtElems M (v2 :: r2) i
        from rfl]
      rw [ih i (by simp)]
      simp [fmtSep, List.map_cons, List.append_assoc]

/-- The object layout: entries are emitted in list (insertion) order,
each on its own line at indent `i + 2`, as `"key": value`. -/
theorem fmtEntries_layout {α : Type} (M : LexModel α) :
    ∀ (ms : List (String × JsonValue α)) (i : Nat), ms ≠ [] →
      fmtEntries M ms i
        = List.intercalate [',', '\n']
            (ms.map fun e => pad (i + 2) ++ ('"' :: (e.1.data ++ ['"', ':', ' ']))
              ++ fmt M e.2 (i + 2))
            ++ ['\n'] := by
  intro ms
  induction ms with
  | nil => intro i h; exact absurd rfl h
  | cons e r ih =>
    intro i _
    obtain ⟨k, v⟩ := e
    cases r with
    | nil =>
      simp [fmtEntries, fmtSep, intercalate_single, List.append_assoc]
    | cons e2 r2 =>
      simp only [List.map_cons]
      rw [intercalate_cons_cons]
      rw [show fmtEntries M ((k, v) :: e2 :: r2) i
          = pad (i + 2) ++ ('"' :: (k.data ++ ('"' :: ':' :: ' ' :: fmt M v (i + 2))))
            ++ fmtSep (e2 :: r2) ++ fmtEntries M (e2 :: r2) i
        from rfl]
      rw [ih i (by simp)]
      simp [fmtSep, List.map_cons, List.append_assoc]

theorem fmt_array_layout {α : Type} (M : LexModel α) (vs : List (JsonValue α)) (i : Nat)
    (h : vs ≠ []) :
    fmt M (JsonValue.array vs) i
      = '[' :: '\n' ::
          (List.intercalate [',', '\n'] (vs.map fun v => pad (i + 2) ++ fmt M v (i + 2))
            ++ ('\n' :: (pad i ++ [']']))) := by
  rw [show fmt M (JsonValue.array vs) i
      = '[' :: '\n' :: (fmtElems M vs i ++ (pad i ++ [']'])) from rfl]
  rw [fmtElems_layout M vs i h]
  simp [List.append_assoc]

theorem fmt_object_layout {α : Type} (M : LexModel α) (ms : List (String × JsonValue α))
    (i : Nat) (h : ms ≠ []) :
    fmt M (JsonValue.object ms) i
      = '\x7b' :: '\n' ::
          (List.intercalate [',', '\n']
            (ms.map fun e => pad (i + 2) ++ ('"' :: (e.1.data ++ ['"', ':', ' ']))
              ++ fmt M e.2 (i + 2))
            ++ ('\n' :: (pad i ++ ['\x7d']))) := by
  rw [show fmt M (JsonValue.object ms) i
      = '\x7b' :: '\n' :: (fmtEntries M ms i ++ (pad i ++ ['\x7d'])) from rfl]
  rw [fmtEntries_layout M ms i h]
  simp [List.append_assoc]


/-- `U` occurs in `V` at container depth `d`. -/
inductive NestedAt {α : Type} : JsonValue α → Nat → JsonValue α → Prop where
  | refl (V : JsonValue α) : NestedAt V 0 V
  | inObj {ms : List (String × JsonValue α)} {k : String} {W U : JsonValue α} {d : Nat}
      (hm : (k, W) ∈ ms) (h : NestedAt W d U) : NestedAt (JsonValue.object ms) (d + 1) U
  | inArr {vs : List (JsonValue α)} {W U : JsonValue α} {d : Nat}
      (hm : W ∈ vs) (h : NestedAt W d U) : NestedAt (JsonValue.array vs) (d + 1) U

/-- Each entry of an object body is printed right after a newline,
preceded by exactly `i + 2` spaces and its quoted key. -/
theorem fmtEntries_mem {α : Type} (M : LexModel α) :
    ∀ (ms : List (String × JsonValue α)) (k : String) (W : JsonValue α),
      (k, W) ∈ ms → ∀ (i : Nat) (Y : List Char),
      ∃ l r, '\n' :: (fmtEntries M ms i ++ Y)
        = l ++ ('\n' :: (pad (i + 2) ++ (('"' :: (k.data ++ ['"', ':', ' '])) ++
            (fmt M W (i + 2) ++ r)))) := by
  intro ms
  induction ms with
  | nil => intro k W hm; exact absurd hm (by simp)
  | cons e r ih =>
    intro k W hm i Y
    rcases List.mem_cons.mp hm with heq | hmem
    · obtain ⟨k2, v2⟩ := e
      injection heq with he1 he2
      subst he1
      subst he2
      refine ⟨[], fmtSep r ++ (fmtEntries M r i ++ Y), ?_⟩
      rw [show fmtEntries M ((k, W) :: r) i
          = pad (i + 2) ++ ('"' :: (k.data ++ ('"' :: ':' :: ' ' :: fmt M W (i + 2))))
            ++ fmtSep r ++ fmtEntries M r i
        from rfl]
      simp [List.append_assoc]
    · obtain ⟨k2, v2⟩ := e
      cases r with
      | nil => exact absurd hmem (by simp)
      | cons e3 r3 =>
        obtain ⟨l, r2, heq⟩ := ih k W hmem i Y
        refine ⟨('\n' :: (pad (i + 2) ++ ('"' :: (k2.data ++ ['"', ':', ' '])) ++
          fmt M v2 (i + 2) ++ [','])) ++ l, r2, ?_⟩
        rw [show fmtEntries M ((k2, v2) :: e3 :: r3) i
            = pad (i + 2) ++ ('"' :: (k2.data ++ ('"' :: ':' :: ' ' :: fmt M v2 (i + 2))))
              ++ fmtSep (e3 :: r3) ++ fmtEntries M (e3 :: r3) i
          from rfl]
        rw [show fmtSep (e3 :: r3) = [',', '\n'] from rfl]
        simp only [List.cons_append, List.nil_append, List.append_assoc]
        rw [heq]
        simp [List.append_assoc]

/-- Each element of an array body is printed right after a newline,
preceded by exactly `i + 2` spaces. -/
theorem fmtElems_mem {α : Type} (M : LexModel α) :
    ∀ (vs : List (JsonValue α)) (W : JsonValue α), W ∈ vs → ∀ (i : Nat) (Y : List Char),
      ∃ l r, '\n' :: (fmtElems M vs i ++ Y)
        = l ++ ('\n' :: (pad (i + 2) ++ (fmt M W (i + 2) ++ r))) := by
  intro vs
  induction vs with
  | nil => intro W hm; exact absurd hm (by simp)
  | cons v r ih =>
    intro W hm i Y
    rcases List.mem_cons.mp hm with heq | hmem
    · subst heq
      refine ⟨[], fmtSep r ++ (fmtElems M r i ++ Y), ?_⟩
      rw [show fmtElems M (W :: r) i
          = pad (i + 2) ++ fmt M W (i + 2) ++ fmtSep r ++ fmtElems M r i from rfl]
      simp [List.append_assoc]
    · cases r with
      | nil => exact absurd hmem (by simp)
      | cons v3 r3 =>
        obtain ⟨l, r2, heq⟩ := ih W hmem i Y
        refine ⟨('\n' :: (pad (i + 2) ++ fmt M v (i + 2) ++ [','])) ++ l, r2, ?_⟩
        rw [show fmtElems M (v :: v3 :: r3) i
            = pad (i + 2) ++ fmt M v (i + 2) ++ fmtSep (v3 :: r3) ++ fmtElems M (v3 :: r3) i
          from rfl]
        rw [show fmtSep (v3 :: r3) = [',', '\n'] from rfl]
        simp only [List.cons_append, List.nil_append, List.append_assoc]
        rw [heq]

/-- A value nested at container depth `d ≥ 1` is printed right after a
newline, indented by exactly `i + 2·d` spaces and rendered at indent
`i + 2·d`, preceded on its line only by its quoted key (object member)
or by nothing (array element or deeper nesting through its ancestors). -/
theorem nested_indent {α : Type} (M : LexModel α) :
    ∀ {V : JsonValue α} {d : Nat} {U : JsonValue α}, NestedAt V d U → 1 ≤ d → ∀ i : Nat,
      ∃ l mid r, fmt M V i
          = l ++ ('\n' :: (pad (i + 2 * d) ++ (mid ++ (fmt M U (i + 2 * d) ++ r)))) ∧
        (mid = [] ∨ ∃ k : String, mid = '"' :: (k.data ++ ['"', ':', ' '])) := by
  intro V d U h
  induction h with
  | refl => intro h1; exact absurd h1 (by omega)
  | inObj hm hnest ih =>
    rename_i ms k W U2 d2
    intro _ i
    rcases Nat.eq_zero_or_pos d2 with hd0 | hdpos
    · subst hd0
      cases hnest
      obtain ⟨l, r, heq⟩ := fmtEntries_mem M ms k W hm i (pad i ++ ['\x7d'])
      refine ⟨'\x7b' :: l, '"' :: (k.data ++ ['"', ':', ' ']), r, ?_, Or.inr ⟨k, rfl⟩⟩
      rw [show fmt M (JsonValue.object ms) i
          = '\x7b' :: ('\n' :: (fmtEntries M ms i ++ (pad i ++ ['\x7d']))) from rfl]
      rw [heq]
      norm_num
    · obtain ⟨l2, mid, r2, heq2, hmid⟩ := ih hdpos (i + 2)
      obtain ⟨l, r, heq⟩ := fmtEntries_mem M ms k W hm i (pad i ++ ['\x7d'])
      refine ⟨'\x7b' :: (l ++ ('\n' :: (pad (i + 2) ++ ('"' :: (k.data ++ ['"', ':', ' '])))))
        ++ l2, mid, r2 ++ r, ?_, hmid⟩
      rw [show fmt M (JsonValue.object ms) i
          = '\x7b' :: ('\n' :: (fmtEntries M ms i ++ (pad i ++ ['\x7d']))) from rfl]
      rw [heq, heq2]
      have harith : i + 2 + 2 * d2 = i + 2 * (d2 + 1) := by omega
      rw [harith]
      simp [List.append_assoc]
  | inArr hm hnest ih =>
    rename_i vs W U2 d2
    intro _ i
    rcases Nat.eq_zero_or_pos d2 with hd0 | hdpos
    · subst hd0
      cases hnest
      obtain ⟨l, r, heq⟩ := fmtElems_mem M vs W hm i (pad i ++ [']'])
      refine ⟨'[' :: l, [], r, ?_, Or.inl rfl⟩
      rw [show fmt M (JsonValue.array vs) i
          = '[' :: ('\n' :: (fmtElems M vs i ++ (pad i ++ [']']))) from rfl]
      rw [heq]
      norm_num
    · obtain ⟨l2, mid, r2, heq2, hmid⟩ := ih hdpos (i + 2)
      obtain ⟨l, r, heq⟩ := fmtElems_mem M vs W hm i (pad i ++ [']'])
      refine ⟨'[' :: (l ++ ('\n' :: pad (i + 2))) ++ l2, mid, r2 ++ r, ?_, hmid⟩
      rw [show fmt M (JsonValue.array vs) i
          = '[' :: ('\n' :: (fmtElems M vs i ++ (pad i ++ [']']))) from rfl]
      rw [heq, heq2]
      have harith : i + 2 + 2 * d2 = i + 2 * (d2 + 1) := by omega
      rw [harith]
      simp [List.append_assoc]


/-!  ## Unknown characters, escape table, cursor invariants -/

/-- An unknown character (not whitespace, structural, quote, digit, sign
or alphabetic) is consumed without producing a token. -/
theorem nextToken_junk {α : Type} (M : LexModel α) (j : Char) (s : List Char)
    (hw : rustIsWhitespace j = false) (h1 : ¬j = '\x7b') (h2 : ¬j = '\x7d') (h3 : ¬j = '[')
    (h4 : ¬j = ']') (h5 : ¬j = ':') (h6 : ¬j = ',') (h7 : ¬j = '"')
    (h8 : (j.isDigit || j = '-' || j = '+') = false) (h9 : M.isAlphabetic j = false) :
    nextToken M (j :: s) = (none, s) := by
  simp [nextToken, List.dropWhile_cons, hw, h1, h2, h3, h4, h5, h6, h7, h8, h9]

/-- The escape table of `read_string`, one equation per arm. -/
theorem readStringAux_escQuote (t acc : List Char) :
    readStringAux ('\\' :: '"' :: t) acc = readStringAux t (acc ++ ['"']) := rfl

theorem readStringAux_escBackslash (t acc : List Char) :
    readStringAux ('\\' :: '\\' :: t) acc = readStringAux t (acc ++ ['\\']) := rfl

theorem readStringAux_escSlash (t acc : List Char) :
    readStringAux ('\\' :: '/' :: t) acc = readStringAux t (acc ++ ['/']) := rfl

theorem readStringAux_escB (t acc : List Char) :
    readStringAux ('\\' :: 'b' :: t) acc = readStringAux t (acc ++ ['\x08']) := rfl

theorem readStringAux_escF (t acc : List Char) :
    readStringAux ('\\' :: 'f' :: t) acc = readStringAux t (acc ++ ['\x0C']) := rfl

theorem readStringAux_escN (t acc : List Char) :
    readStringAux ('\\' :: 'n' :: t) acc = readStringAux t (acc ++ ['\n']) := rfl

theorem readStringAux_escR (t acc : List Char) :
    readStringAux ('\\' :: 'r' :: t) acc = readStringAux t (acc ++ ['\x0D']) := rfl

theorem readStringAux_escT (t acc : List Char) :
    readStringAux ('\\' :: 't' :: t) acc = readStringAux t (acc ++ ['\t']) := rfl

/-- `\uXXXX` consumes the four following characters and contributes
nothing to the decoded text. -/
theorem readStringAux_escU (c1 c2 c3 c4 : Char) (t acc : List Char) :
    readStringAux ('\\' :: 'u' :: c1 :: c2 :: c3 :: c4 :: t) acc = readStringAux t acc := rfl

/-- Any other backslash-character pair is dropped. -/
theorem readStringAux_escOther (e : Char) (t acc : List Char)
    (h1 : ¬e = '"') (h2 : ¬e = '\\') (h3 : ¬e = '/') (h4 : ¬e = 'b') (h5 : ¬e = 'f')
    (h6 : ¬e = 'n') (h7 : ¬e = 'r') (h8 : ¬e = 't') (h9 : ¬e = 'u') :
    readStringAux ('\\' :: e :: t) acc = readStringAux t acc := by
  rw [readStringAux.eq_def]
  split
  · rename_i heq
    cases heq
  · rename_i r heq
    injection heq with he1 he2
    exact absurd he1 (by decide)
  · rename_i r heq
    injection heq with he1 he2
    subst he2
    split
    all_goals try (rename_i heq2; injection heq2 with hf1 hf2; exact absurd hf1 h9)
    all_goals try (rename_i heq2; cases heq2)
    rw [if_neg h1, if_neg h2, if_neg h3, if_neg h4, if_neg h5, if_neg h6, if_neg h7,
      if_neg h8]
  · rename_i c2 r hcq hcb heq
    injection heq with he1 he2
    exact absurd he1.symm hcb

/-- The cursor invariants as the specification states them. -/
def CursorInv (st : Lexer) : Prop :=
  st.position ≤ st.read_position ∧ st.read_position ≤ utf8Len st.input ∧
    (∀ c, st.ch = some c → st.read_position - st.position = c.utf8Size) ∧
    (st.ch = none → st.read_position - st.position = 0)

theorem lexInv_cursorInv (st : Lexer) (h : LexInv st) : CursorInv st := by
  obtain ⟨pre, suf, hin, hrp, hch⟩ := h
  have hle : st.read_position ≤ utf8Len st.input := by
    rw [hin, utf8Len_append]
    omega
  cases hc : st.ch with
  | none =>
    rw [hc] at hch
    have hch2 : st.position = st.read_position := hch
    refine ⟨by omega, hle, ?_, fun _ => by omega⟩
    intro c h2
    rw [hc] at h2
    cases h2
  | some c =>
    rw [hc] at hch
    have hch2 : st.position + c.utf8Size = st.read_position := hch
    refine ⟨by omega, hle, ?_, ?_⟩
    · intro c2 h2
      rw [hc] at h2
      injection h2 with h3
      subst h3
      omega
    · intro h2
      rw [hc] at h2
      cases h2


/-!  ## A concrete instantiation

The float payload is `Empty`: inputs without numeric lexemes never
consult `parseF64`, and no `JsonValue.number` leaf exists, so `f64ToStr`
is never applied.  `char::is_alphabetic` is instantiated with ASCII
`Char.isAlpha`, which agrees with it on every character these inputs
contain. -/

def M0 : LexModel Empty where
  parseF64 := fun _ => none
  f64ToStr := fun n => nomatch n
  isAlphabetic := Char.isAlpha

theorem m0_tokens_trailArr :
    tokenList M0 "[true,]".data
      = [some Token.leftBracket, some Token.true, some Token.comma,
         some Token.rightBracket] := rfl

/-- Counterexample to C2 as stated: an array with a trailing comma does
not parse to the absent value; the parser accepts it and returns the
array without the trailing comma. -/
theorem claim_C2_counterexample :
    parse M0 "[true,]".data = some (JsonValue.array [JsonValue.true]) := by
  unfold parse
  rw [m0_tokens_trailArr]
  show (parseValue (some Token.leftBracket)
      [some Token.true, some Token.comma, some Token.rightBracket]).1
    = some (JsonValue.array [JsonValue.true])
  rw [parseValue_leftBracket]
  rw [parseArray_loop
    (show padv [some (Token.true : Token Empty), some Token.comma, some Token.rightBracket]
        = (some Token.true, [some Token.comma, some Token.rightBracket]) from rfl)
    (fun h => Token.noConfusion (Option.some.inj h))]
  rw [parseArrLoop_comma []
    (parseValue_true [some Token.comma, some Token.rightBracket])]
  show (parseArrLoop [JsonValue.true] (some Token.rightBracket) ([] : List (Option (Token Empty)))).1
    = some (JsonValue.array [JsonValue.true])
  rw [parseArrLoop_rightBracket [JsonValue.true] (parseValue_rightBracket [])]
  rfl

theorem m0_tokens_objHole :
    tokenList M0 "\x7b\"a\":,\"b\":true\x7d".data
      = [some Token.leftBrace, some (Token.string "a"), some Token.colon, some Token.comma,
         some (Token.string "b"), some Token.colon, some Token.true,
         some Token.rightBrace] := rfl

/-- Counterexample to C3 as stated: an object whose first value is
missing (inner `parse_value` fails on the comma) parses successfully to
an object that silently omits the failed entry. -/
theorem claim_C3_counterexample :
    parse M0 "\x7b\"a\":,\"b\":true\x7d".data
      = some (JsonValue.object [("b", JsonValue.true)]) := by
  unfold parse
  rw [m0_tokens_objHole]
  show (parseValue (some Token.leftBrace)
      [some (Token.string "a"), some Token.colon, some Token.comma, some (Token.string "b"),
       some Token.colon, some Token.true, some Token.rightBrace]).1
    = some (JsonValue.object [("b", JsonValue.true)])
  rw [parseValue_leftBrace]
  rw [parseObject_loop
    (show padv [some (Token.string "a" : Token Empty), some Token.colon, some Token.comma,
        some (Token.string "b"), some Token.colon, some Token.true, some Token.rightBrace]
      = (some (Token.string "a"), [some Token.colon, some Token.comma, some (Token.string "b"),
         some Token.colon, some Token.true, some Token.rightBrace]) from rfl)
    (fun h => Token.noConfusion (Option.some.inj h))]
  rw [parseObjLoop_comma [] "a"
    (show padv [some (Token.colon : Token Empty), some Token.comma, some (Token.string "b"),
        some Token.colon, some Token.true, some Token.rightBrace]
      = (some Token.colon, [some Token.comma, some (Token.string "b"), some Token.colon,
         some Token.true, some Token.rightBrace]) from rfl)
    rfl
    (parseValue_comma [some (Token.string "b"), some Token.colon, some Token.true,
      some Token.rightBrace])]
  show (parseObjLoop [] (some (Token.string "b" : Token Empty))
      [some Token.colon, some Token.true, some Token.rightBrace]).1
    = some (JsonValue.object [("b", JsonValue.true)])
  rw [parseObjLoop_rightBrace [] "b"
    (show padv [some (Token.colon : Token Empty), some Token.true, some Token.rightBrace]
      = (some Token.colon, [some Token.true, some Token.rightBrace]) from rfl)
    rfl
    (parseValue_true [some Token.rightBrace])]
  rfl

theorem m0_tokens_junk :
    tokenList M0 "[true@,null]".data
      = [some Token.leftBracket, some Token.true, none, some Token.comma, some Token.null,
         some Token.rightBracket] := rfl

theorem m0_parse_junk : parse M0 "[true@,null]".data = none := by
  unfold parse
  rw [m0_tokens_junk]
  show (parseValue (some Token.leftBracket)
      [some Token.true, none, some Token.comma, some Token.null, some Token.rightBracket]).1
    = none
  rw [parseValue_leftBracket]
  rw [parseArray_loop
    (show padv [some (Token.true : Token Empty), none, some Token.comma, some Token.null,
        some Token.rightBracket]
      = (some Token.true, [none, some Token.comma, some Token.null, some Token.rightBracket])
      from rfl)
    (fun h => Token.noConfusion (Option.some.inj h))]
  rw [parseArrLoop_fail []
    (parseValue_true [none, some Token.comma, some Token.null, some Token.rightBracket])
    (fun h => Option.noConfusion h) (fun h => Option.noConfusion h)]

theorem m0_tokens_clean :
    tokenList M0 "[true,null]".data
      = [some Token.leftBracket, some Token.true, some Token.comma, some Token.null,
         some Token.rightBracket] := rfl

theorem m0_parse_clean :
    parse M0 "[true,null]".data
      = some (JsonValue.array [JsonValue.true, JsonValue.null]) := by
  unfold parse
  rw [m0_tokens_clean]
  show (parseValue (some Token.leftBracket)
      [some Token.true, some Token.comma, some Token.null, some Token.rightBracket]).1
    = some (JsonValue.array [JsonValue.true, JsonValue.null])
  rw [parseValue_leftBracket]
  rw [parseArray_loop
    (show padv [some (Token.true : Token Empty), some Token.comma, some Token.null,
        some Token.rightBracket]
      = (some Token.true, [some Token.comma, some Token.null, some Token.rightBracket])
      from rfl)
    (fun h => Token.noConfusion (Option.some.inj h))]
  rw [parseArrLoop_comma []
    (parseValue_true [some Token.comma, some Token.null, some Token.rightBracket])]
  show (parseArrLoop [JsonValue.true] (some (Token.null : Token Empty))
      [some Token.rightBracket]).1
    = some (JsonValue.array [JsonValue.true, JsonValue.null])
  rw [parseArrLoop_rightBracket [JsonValue.true] (parseValue_null [some Token.rightBracket])]
  rfl


/-!  ## The claims -/

/-- C2 (amended): a trailing comma before the closing brace makes an
object parse fail — after the comma the loop requires a string key and
finds `}` — but a trailing comma before the closing bracket of an array
is accepted: the failed inner `parse_value` on `]` is skipped and the
array of the preceding elements is returned. -/
theorem claim_C2 {α : Type} (ms : List (String × JsonValue α)) (vs : List (JsonValue α))
    (R : List (Option (Token α))) (hms : ms ≠ []) (hmw : wfEntries ms = true)
    (hvs : vs ≠ []) (hvw : wfElems vs = true) :
    parseToks (some Token.leftBrace ::
        (List.map some (tokensOfEntries ms ++ [Token.comma, Token.rightBrace]) ++ R)) = none
    ∧ parseToks (some Token.leftBracket ::
        (List.map some (tokensOfElems vs ++ [Token.comma, Token.rightBracket]) ++ R))
      = some (JsonValue.array vs) := by
  constructor
  · cases ms with
    | nil => exact absurd rfl hms
    | cons e r =>
      obtain ⟨k, v⟩ := e
      show (parseValue (some Token.leftBrace)
          (List.map some (tokensOfEntries ((k, v) :: r) ++ [Token.comma, Token.rightBrace])
            ++ R)).1 = none
      rw [parseValue_leftBrace]
      rw [parseObject_loop
        (show padv (List.map some
              (tokensOfEntries ((k, v) :: r) ++ [Token.comma, Token.rightBrace]) ++ R)
            = (some (Token.string k),
               List.map some ((Token.colon :: (tokensOf v ++ commaSep r ++ tokensOfEntries r))
                 ++ [Token.comma, Token.rightBrace]) ++ R)
          from rfl)
        (fun hc => Token.noConfusion (Option.some.inj hc))]
      rw [show parseObjLoop ([] : List (String × JsonValue α)) (some (Token.string k))
          (List.map some ((Token.colon :: (tokensOf v ++ commaSep r ++ tokensOfEntries r))
            ++ [Token.comma, Token.rightBrace]) ++ R)
        = (none, some Token.rightBrace, R)
        from parseObjLoop_trailComma ((k, v) :: r) (by simp) hmw [] R]
  · cases vs with
    | nil => exact absurd rfl hvs
    | cons v r =>
      show (parseValue (some Token.leftBracket)
          (List.map some (tokensOfElems (v :: r) ++ [Token.comma, Token.rightBracket])
            ++ R)).1 = some (JsonValue.array (v :: r))
      rw [parseValue_leftBracket]
      simp only [tokensOfElems, List.map_append, List.map_cons, List.map_nil, List.cons_append,
        List.nil_append, List.append_assoc]
      rw [parseArray_loop
        (show padv (List.map some (tokensOf v) ++ (List.map some (commaSep r) ++
              (List.map some (tokensOfElems r) ++
                some Token.comma :: some Token.rightBracket :: R)))
            = ((padv (List.map some (tokensOf v) ++ (List.map some (commaSep r) ++
                 (List.map some (tokensOfElems r) ++
                   some Token.comma :: some Token.rightBracket :: R)))).1,
               (padv (List.map some (tokensOf v) ++ (List.map some (commaSep r) ++
                 (List.map some (tokensOfElems r) ++
                   some Token.comma :: some Token.rightBracket :: R)))).2)
          from rfl)
        (tokensOf_head_not_rbracket v _)]
      have h := parseArrLoop_trailComma (v :: r) (by simp) hvw [] R
      simp only [tokensOfElems, List.map_append, List.map_cons, List.map_nil, List.cons_append,
        List.nil_append, List.append_assoc] at h
      rw [h]

/-- C2 witness at a concrete instance. -/
theorem claim_C2_witness :
    ([("a", (JsonValue.true : JsonValue Empty))] ≠ [] ∧
      wfEntries [("a", (JsonValue.true : JsonValue Empty))] = true ∧
      [(JsonValue.true : JsonValue Empty)] ≠ [] ∧
      wfElems [(JsonValue.true : JsonValue Empty)] = true) ∧
    (parseToks (some Token.leftBrace ::
        (List.map some (tokensOfEntries [("a", (JsonValue.true : JsonValue Empty))]
          ++ [Token.comma, Token.rightBrace]) ++ [])) = none
     ∧ parseToks (some Token.leftBracket ::
        (List.map some (tokensOfElems [(JsonValue.true : JsonValue Empty)]
          ++ [Token.comma, Token.rightBracket]) ++ []))
       = some (JsonValue.array [JsonValue.true])) := by
  have h1 : [("a", (JsonValue.true : JsonValue Empty))] ≠ [] := List.cons_ne_nil _ _
  have h2 : wfEntries [("a", (JsonValue.true : JsonValue Empty))] = true := rfl
  have h3 : [(JsonValue.true : JsonValue Empty)] ≠ [] := List.cons_ne_nil _ _
  have h4 : wfElems [(JsonValue.true : JsonValue Empty)] = true := rfl
  exact ⟨⟨h1, h2, h3, h4⟩, claim_C2 [("a", JsonValue.true)] [JsonValue.true] [] h1 h2 h3 h4⟩

/-- C3 (amended): when an inner `parse_value` fails and leaves the
lookahead on a comma, the container loop silently drops the failed entry
or element and continues; the container fails only when the lookahead
after the failure is neither a comma nor the container's closer. -/
theorem claim_C3 {α : Type} :
    (∀ (acc : List (String × JsonValue α)) (k : String)
       (L L2 L3 L4 : List (Option (Token α))) (c3 : Option (Token α)),
       padv L = (some Token.colon, L2) → padv L2 = (c3, L3) →
       parseValue c3 L3 = (none, some Token.comma, L4) →
       parseObjLoop acc (some (Token.string k)) L = parseObjLoop acc (padv L4).1 (padv L4).2)
    ∧ (∀ (acc : List (JsonValue α)) (cur : Option (Token α))
         (L L4 : List (Option (Token α))),
       parseValue cur L = (none, some Token.comma, L4) →
       parseArrLoop acc cur L = parseArrLoop acc (padv L4).1 (padv L4).2)
    ∧ (∀ (acc : List (String × JsonValue α)) (k : String)
         (L L2 L3 L4 : List (Option (Token α))) (c3 c4 : Option (Token α))
         (v : Option (JsonValue α)),
       padv L = (some Token.colon, L2) → padv L2 = (c3, L3) →
       parseValue c3 L3 = (v, c4, L4) → c4 ≠ some Token.comma → c4 ≠ some Token.rightBrace →
       parseObjLoop acc (some (Token.string k)) L = (none, c4, L4))
    ∧ (∀ (acc : List (JsonValue α)) (cur c4 : Option (Token α))
         (L L4 : List (Option (Token α))) (v : Option (JsonValue α)),
       parseValue cur L = (v, c4, L4) → c4 ≠ some Token.comma → c4 ≠ some Token.rightBracket →
       parseArrLoop acc cur L = (none, c4, L4)) := by
  refine ⟨?_, ?_, ?_, ?_⟩
  · intro acc k L L2 L3 L4 c3 h1 h2 h3
    exact parseObjLoop_comma acc k h1 h2 h3
  · intro acc cur L L4 h3
    exact parseArrLoop_comma acc h3
  · intro acc k L L2 L3 L4 c3 c4 v h1 h2 h3 hn1 hn2
    exact parseObjLoop_fail acc k h1 h2 h3 hn1 hn2
  · intro acc cur c4 L L4 v h3 hn1 hn2
    exact parseArrLoop_fail acc h3 hn1 hn2

/-- C4 (amended): at the lexer level an unknown character is skipped —
`next_token()` consumes it, produces no token, and the following calls
continue with the rest of the text — but the parser observes the empty
pull, so the result of parsing the whole text can change. -/
theorem claim_C4 {α : Type} (M : LexModel α) (j : Char) (s : List Char)
    (hw : rustIsWhitespace j = false) (h1 : ¬j = '\x7b') (h2 : ¬j = '\x7d') (h3 : ¬j = '[')
    (h4 : ¬j = ']') (h5 : ¬j = ':') (h6 : ¬j = ',') (h7 : ¬j = '"')
    (h8 : (j.isDigit || j = '-' || j = '+') = false) (h9 : M.isAlphabetic j = false) :
    nextToken M (j :: s) = (none, s) ∧ tokenList M (j :: s) = none :: tokenList M s := by
  have h := nextToken_junk M j s hw h1 h2 h3 h4 h5 h6 h7 h8 h9
  refine ⟨h, ?_⟩
  rw [tokenList_cons M (j :: s) (by simp), h]

/-- C4 witness at a concrete instance. -/
theorem claim_C4_witness :
    (rustIsWhitespace '@' = false ∧ M0.isAlphabetic '@' = false) ∧
    (nextToken M0 ('@' :: "true".data) = (none, "true".data) ∧
      tokenList M0 ('@' :: "true".data) = none :: tokenList M0 "true".data) :=
  ⟨⟨rfl, rfl⟩,
   claim_C4 M0 '@' "true".data rfl (by decide) (by decide) (by decide) (by decide) (by decide)
     (by decide) (by decide) rfl rfl⟩

/-- Counterexample to C4 as stated: inserting `@` between the `true`
lexeme and the comma changes the parse result from the two-element array
to the absent value. -/
theorem claim_C4_counterexample :
    parse M0 "[true@,null]".data = none ∧
    parse M0 "[true,null]".data = some (JsonValue.array [JsonValue.true, JsonValue.null]) :=
  ⟨m0_parse_junk, m0_parse_clean⟩


theorem strOk_of_check (s : String)
    (h : (s.data.all fun c => decide (¬c = '"') && decide (¬c = '\\')) = true) : StrOk s := by
  intro c hc
  rw [List.all_eq_true] at h
  have h2 := h c hc
  rw [Bool.and_eq_true, decide_eq_true_eq, decide_eq_true_eq] at h2
  exact h2

/-- C1: for every JSON value in the well-formed subset the printer
supports — no duplicate object keys (`wfKeys`), strings free of the two
characters the lexer treats specially, and numbers whose `to_string`
output is a numeric lexeme that `parse::<f64>` maps back to the same
float (IEEE round trip, so numeric leaves are compared under IEEE
equality) — parsing the text printed at indent 0 returns the value. -/
theorem claim_C1 {α : Type} (M : LexModel α) (V : JsonValue α) (hA : GoodAlpha M)
    (hwf : wfKeys V = true) (hp : PrintOk M V) : parse M (fmt M V 0) = some V :=
  parse_fmt M hA V hwf hp

/-- C1 witness at a concrete instance. -/
theorem claim_C1_witness :
    (GoodAlpha M0 ∧
      wfKeys (JsonValue.object [("a", JsonValue.array [JsonValue.true, JsonValue.null]),
        ("b", JsonValue.string "x")] : JsonValue Empty) = true ∧
      PrintOk M0 (JsonValue.object [("a", JsonValue.array [JsonValue.true, JsonValue.null]),
        ("b", JsonValue.string "x")])) ∧
    parse M0 (fmt M0 (JsonValue.object [("a", JsonValue.array [JsonValue.true, JsonValue.null]),
        ("b", JsonValue.string "x")]) 0)
      = some (JsonValue.object [("a", JsonValue.array [JsonValue.true, JsonValue.null]),
        ("b", JsonValue.string "x")]) := by
  have hA : GoodAlpha M0 := ⟨rfl, rfl, rfl, rfl, rfl, rfl, rfl, rfl, rfl, rfl, rfl⟩
  have hp : PrintOk M0 (JsonValue.object [("a", JsonValue.array [JsonValue.true,
      JsonValue.null]), ("b", JsonValue.string "x")]) :=
    ⟨strOk_of_check "a" rfl, ⟨trivial, trivial, trivial⟩, strOk_of_check "b" rfl,
      strOk_of_check "x" rfl, trivial⟩
  exact ⟨⟨hA, rfl, hp⟩, claim_C1 M0 _ hA rfl hp⟩

/-- C5: the parser returns array elements in the order their lexemes
appear in the token stream, and the printer emits object entries in the
order of the entry list — the insertion order of the object container
built during parsing. -/
theorem claim_C5 {α : Type} (M : LexModel α) (vs : List (JsonValue α))
    (ms : List (String × JsonValue α)) (R : List (Option (Token α))) (i : Nat)
    (hw : wfElems vs = true) (hm : ms ≠ []) :
    parseToks (List.map some (tokensOf (JsonValue.array vs)) ++ R)
      = some (JsonValue.array vs)
    ∧ fmt M (JsonValue.object ms) i
      = '\x7b' :: '\n' ::
          (List.intercalate [',', '\n']
            (ms.map fun e => pad (i + 2) ++ ('"' :: (e.1.data ++ ['"', ':', ' ']))
              ++ fmt M e.2 (i + 2)) ++ ('\n' :: (pad i ++ ['\x7d']))) :=
  ⟨parseToks_tokensOf (JsonValue.array vs) R hw, fmt_object_layout M ms i hm⟩

/-- C5 witness at a concrete instance. -/
theorem claim_C5_witness :
    (wfElems [(JsonValue.true : JsonValue Empty), JsonValue.null] = true ∧
      [("k", (JsonValue.null : JsonValue Empty))] ≠ []) ∧
    (parseToks (List.map some
        (tokensOf (JsonValue.array [(JsonValue.true : JsonValue Empty), JsonValue.null])) ++ [])
      = some (JsonValue.array [JsonValue.true, JsonValue.null])
     ∧ fmt M0 (JsonValue.object [("k", JsonValue.null)]) 0
      = '\x7b' :: '\n' ::
          (List.intercalate [',', '\n']
            ([("k", (JsonValue.null : JsonValue Empty))].map
              fun e => pad 2 ++ ('"' :: (e.1.data ++ ['"', ':', ' '])) ++ fmt M0 e.2 2)
            ++ ('\n' :: (pad 0 ++ ['\x7d'])))) :=
  ⟨⟨rfl, List.cons_ne_nil _ _⟩,
   claim_C5 M0 [JsonValue.true, JsonValue.null] [("k", JsonValue.null)] [] 0 rfl
     (List.cons_ne_nil _ _)⟩

/-- C6: the escape table of `read_string`: `\"`, `\\`, `\/` decode to the
escaped character, `\b \f \n \r \t` to U+0008, U+000C, U+000A, U+000D,
U+0009, `\uXXXX` consumes the four following characters and contributes
nothing, any other backslash pair is dropped; the string literal
`"\b\f\n\r\t"` decodes to exactly the five C0 characters. -/
theorem claim_C6 {α : Type} (M : LexModel α) :
    (∀ t acc : List Char, readStringAux ('\\' :: '"' :: t) acc = readStringAux t (acc ++ ['"']))
    ∧ (∀ t acc : List Char,
        readStringAux ('\\' :: '\\' :: t) acc = readStringAux t (acc ++ ['\\']))
    ∧ (∀ t acc : List Char,
        readStringAux ('\\' :: '/' :: t) acc = readStringAux t (acc ++ ['/']))
    ∧ (∀ t acc : List Char,
        readStringAux ('\\' :: 'b' :: t) acc = readStringAux t (acc ++ ['\x08']))
    ∧ (∀ t acc : List Char,
        readStringAux ('\\' :: 'f' :: t) acc = readStringAux t (acc ++ ['\x0C']))
    ∧ (∀ t acc : List Char,
        readStringAux ('\\' :: 'n' :: t) acc = readStringAux t (acc ++ ['\n']))
    ∧ (∀ t acc : List Char,
        readStringAux ('\\' :: 'r' :: t) acc = readStringAux t (acc ++ ['\x0D']))
    ∧ (∀ t acc : List Char,
        readStringAux ('\\' :: 't' :: t) acc = readStringAux t (acc ++ ['\t']))
    ∧ (∀ (c1 c2 c3 c4 : Char) (t acc : List Char),
        readStringAux ('\\' :: 'u' :: c1 :: c2 :: c3 :: c4 :: t) acc = readStringAux t acc)
    ∧ (∀ (e : Char) (t acc : List Char),
        ¬e = '"' → ¬e = '\\' → ¬e = '/' → ¬e = 'b' → ¬e = 'f' → ¬e = 'n' → ¬e = 'r' →
        ¬e = 't' → ¬e = 'u' → readStringAux ('\\' :: e :: t) acc = readStringAux t acc)
    ∧ nextToken M
        ('"' :: '\\' :: 'b' :: '\\' :: 'f' :: '\\' :: 'n' :: '\\' :: 'r' :: '\\' :: 't'
          :: '"' :: [])
      = (some (Token.string (String.mk ['\x08', '\x0C', '\n', '\x0D', '\t'])), []) := by
  refine ⟨fun t acc => rfl, fun t acc => rfl, fun t acc => rfl, fun t acc => rfl,
    fun t acc => rfl, fun t acc => rfl, fun t acc => rfl, fun t acc => rfl,
    fun c1 c2 c3 c4 t acc => rfl, ?_, rfl⟩
  intro e t acc h1 h2 h3 h4 h5 h6 h7 h8 h9
  exact readStringAux_escOther e t acc h1 h2 h3 h4 h5 h6 h7 h8 h9

/-- C7: the printed output for a non-empty array is `[`, a newline, the
elements each preceded by (indent + 2) spaces and rendered at indent + 2
with `",\n"` between them and a newline after the last, and `]` preceded
by the current indent; consequently with the top-level call at indent 0 a
value nested at container depth d ≥ 1 appears right after a newline,
indented by exactly 2·d spaces (preceded on its line only by its quoted
key when it is an object member). -/
theorem claim_C7 {α : Type} (M : LexModel α) (vs : List (JsonValue α)) (i : Nat)
    {V U : JsonValue α} {d : Nat}
    (hvs : vs ≠ []) (hn : NestedAt V d U) (hd : 1 ≤ d) :
    fmt M (JsonValue.array vs) i
      = '[' :: '\n' ::
          (List.intercalate [',', '\n'] (vs.map fun v => pad (i + 2) ++ fmt M v (i + 2))
            ++ ('\n' :: (pad i ++ [']'])))
    ∧ ∃ l mid r, fmt M V 0
        = l ++ ('\n' :: (pad (2 * d) ++ (mid ++ (fmt M U (2 * d) ++ r)))) ∧
      (mid = [] ∨ ∃ k : String, mid = '"' :: (k.data ++ ['"', ':', ' '])) := by
  refine ⟨fmt_array_layout M vs i hvs, ?_⟩
  have h := nested_indent M hn hd 0
  rwa [Nat.zero_add] at h

/-- C7 witness at a concrete instance. -/
theorem claim_C7_witness :
    ([(JsonValue.null : JsonValue Empty)] ≠ [] ∧
      NestedAt (JsonValue.array [(JsonValue.true : JsonValue Empty)]) 1 JsonValue.true ∧
      1 ≤ 1) ∧
    (fmt M0 (JsonValue.array [JsonValue.null]) 0
      = '[' :: '\n' ::
          (List.intercalate [',', '\n']
            ([(JsonValue.null : JsonValue Empty)].map fun v => pad 2 ++ fmt M0 v 2)
            ++ ('\n' :: (pad 0 ++ [']'])))
     ∧ ∃ l mid r, fmt M0 (JsonValue.array [JsonValue.true]) 0
        = l ++ ('\n' :: (pad 2 ++ (mid ++ (fmt M0 JsonValue.true 2 ++ r)))) ∧
      (mid = [] ∨ ∃ k : String, mid = '"' :: (k.data ++ ['"', ':', ' ']))) := by
  have hn : NestedAt (JsonValue.array [(JsonValue.true : JsonValue Empty)]) 1 JsonValue.true :=
    NestedAt.inArr (by simp) (NestedAt.refl _)
  exact ⟨⟨List.cons_ne_nil _ _, hn, le_refl 1⟩,
    claim_C7 M0 [JsonValue.null] 0 (List.cons_ne_nil _ _) hn (le_refl 1)⟩

/-- C8: the token stream of any finite input is finite: after at most as
many `next_token()` calls as the input has characters the remaining text
is empty, and every further call returns the end-of-input marker `None`
without changing the state. -/
theorem claim_C8 {α : Type} (M : LexModel α) (s : List Char) :
    ∃ n : Nat, (∀ m, n ≤ m → lexIterState M m s = []) ∧ nextToken M [] = (none, []) :=
  ⟨s.length, fun m hm => lexIterState_nil M m s hm, rfl⟩

/-- C9: the cursor invariants — `position ≤ read_position ≤` byte length
of the input, and `read_position − position` is the UTF-8 byte size of
the current character, or zero at end of input — hold after construction
and after every number of `next_token()` calls. -/
theorem claim_C9 {α : Type} (M : LexModel α) (input : List Char) (n : Nat) :
    CursorInv (Lexer.new input) ∧ CursorInv (Lexer.iter M n (Lexer.new input)) :=
  ⟨lexInv_cursorInv _ (LexInv.new input),
   lexInv_cursorInv _ (LexInv.iter M n (Lexer.new input) (LexInv.new input))⟩

/-- C10: `parse()` returns the first complete value of the token stream
and never inspects what follows: appending any further pulls after the
canonical token stream of a well-formed value leaves the result
unchanged, and no failure is reported for the remainder. -/
theorem claim_C10 {α : Type} (V : JsonValue α) (R : List (Option (Token α)))
    (h : wfKeys V = true) :
    parseToks (List.map some (tokensOf V) ++ R) = parseToks (List.map some (tokensOf V))
    ∧ parseToks (List.map some (tokensOf V) ++ R) = some V := by
  have h1 := parseToks_tokensOf V R h
  have h2 := parseToks_tokensOf V [] h
  rw [List.append_nil] at h2
  exact ⟨by rw [h1, h2], h1⟩

/-- C10 witness at a concrete instance. -/
theorem claim_C10_witness :
    wfKeys (JsonValue.null : JsonValue Empty) = true ∧
    (parseToks (List.map some (tokensOf (JsonValue.null : JsonValue Empty))
        ++ [some Token.true])
      = parseToks (List.map some (tokensOf (JsonValue.null : JsonValue Empty)))
     ∧ parseToks (List.map some (tokensOf (JsonValue.null : JsonValue Empty))
        ++ [some Token.true])
      = some JsonValue.null) :=
  ⟨rfl, claim_C10 JsonValue.null [some Token.true] rfl⟩

end RJson
